import Mathlib

/-!
Shallow embedding of `choosable.py` (Chooseable-Path Adventure Tracker) and
verification of specification claims about it.

Modelling conventions:
* Python dictionaries are modelled as insertion-ordered association lists
  (`List (K × V)`): assignment `d[k] = v` overwrites in place when the key is
  present and appends otherwise; iteration over `.values()` is iteration over
  the list.  Structural comparisons of books compare dictionaries as maps.
* The mutable, shared `Character` objects are modelled with an explicit object
  store (`heap : List Character`); a reference to a character object is its
  index in the store.  The store only grows, so references stay valid.
* `raise Exception(msg)` is modelled with `Except Err`; fallible operations
  return `Except Err α`, and every raise happens before any state change at
  the modelled call sites, so an error result models an unchanged book.
* Python 2 page ids are either ints or strings; `PageId` is the tagged union,
  ordered the way Python 2 `sorted` orders a mixed list (ints numerically
  first, then strings bytewise).
-/

namespace Choosable

/-- A page id: either a page number (Python int) or an opaque label (Python str). -/
inductive PageId where
  | num (n : Int)
  | label (s : String)
deriving DecidableEq

/-- Bytewise (code point) lexicographic strict comparison of character lists,
    as Python 2 compares strings. -/
def charListLt : List Char → List Char → Bool
  | [], [] => false
  | [], _ :: _ => true
  | _ :: _, [] => false
  | a :: as, b :: bs =>
    if a.toNat < b.toNat then true
    else if b.toNat < a.toNat then false
    else charListLt as bs

/-- Python 2 strict string comparison. -/
def strLt (a b : String) : Bool := charListLt a.data b.data

/-- Python 2 comparison of mixed int and str page ids: ints order before strs
    (type-name ordering), ints numerically, strs bytewise. -/
def PageId.blt : PageId → PageId → Bool
  | .num m, .num n => decide (m < n)
  | .num _, .label _ => true
  | .label _, .num _ => false
  | .label s, .label t => strLt s t

/-- Non-strict page id order (total order used by `sorted`). -/
def PageId.le (a b : PageId) : Prop := PageId.blt b a = false

instance : DecidableRel PageId.le := fun a b =>
  inferInstanceAs (Decidable (PageId.blt b a = false))

/-- `sorted(keys)` on page ids. -/
def sortPageIds (l : List PageId) : List PageId := l.insertionSort PageId.le

/-- Python `'%s' % pageid`. -/
def PageId.str : PageId → String
  | .num n => toString n
  | .label s => s

/-- Errors raised by the program: `Exception(msg)`, `KeyError` (dict/`del`
    lookup miss) and `IndexError` (list index out of range). -/
inductive Err where
  | exception (msg : String)
  | keyError
  | indexError
deriving DecidableEq

section Dict

variable {K V : Type} [DecidableEq K]

/-- Python dict lookup `d.get(k)` / `k in d`. -/
def lookupA : List (K × V) → K → Option V
  | [], _ => none
  | (k', v) :: t, k => if k = k' then some v else lookupA t k

/-- Python dict assignment `d[k] = v`: overwrite in place, or append a new key. -/
def dinsert : List (K × V) → K → V → List (K × V)
  | [], k, v => [(k, v)]
  | (k', v') :: t, k, v => if k = k' then (k, v) :: t else (k', v') :: dinsert t k v

/-- Python `del d[k]` for a key known to be present (call sites guard or
    propagate `KeyError` themselves). -/
def derase : List (K × V) → K → List (K × V)
  | [], _ => []
  | (k', v') :: t, k => if k = k' then t else (k', v') :: derase t k

/-- `d.keys()`. -/
def keysA (l : List (K × V)) : List K := l.map Prod.fst

/-- `d.values()`. -/
def valuesA (l : List (K × V)) : List V := l.map Prod.snd

/-- Key uniqueness of a modelled dict (a representation invariant every real
    Python dict satisfies). -/
def nodupKeysB : List (K × V) → Bool
  | [] => true
  | (k, _) :: t => t.all (fun e => decide (e.1 ≠ k)) && nodupKeysB t

end Dict

section DictSet

variable {K : Type} [DecidableEq K]

/-- `d[k] = True` on a dict used as a set (the intermediates dict). -/
def sinsert : List K → K → List K
  | [], k => [k]
  | x :: t, k => if k = x then x :: t else x :: sinsert t k

/-- `del d[k]` on a dict used as a set. -/
def serase : List K → K → List K
  | [], _ => []
  | x :: t, k => if k = x then t else x :: serase t k

/-- Element uniqueness of a modelled set. -/
def nodupB : List K → Bool
  | [] => true
  | x :: t => t.all (fun e => decide (e ≠ x)) && nodupB t

end DictSet

/-- `class Character`: a name and two graphviz colors. -/
structure Character where
  name : String
  fillcolor : String
  fontcolor : String
deriving DecidableEq

/-- `Character(name)`: colors default to white / black. -/
def Character.new (name : String) : Character :=
  { name := name, fillcolor := "white", fontcolor := "black" }

/-- `class Choice`: an edge to a target page id, with a summary. -/
structure Choice where
  target : PageId
  summary : String
deriving DecidableEq

/-- A reference to a live `Character` object: its index in the book heap. -/
abbrev CharRef := Nat

/-- `class Page`.  `character` is a shared reference to a live Character
    object; `choices` is the dict target → Choice. -/
structure Page where
  pagenum : PageId
  character : CharRef
  summary : String
  canonical : Bool
  ending : Bool
  choices : List (PageId × Choice)
deriving DecidableEq

/-- `Page(pagenum, character=c, summary=s)` with default flags and no choices. -/
def Page.new (pagenum : PageId) (character : CharRef) (summary : String) : Page :=
  { pagenum := pagenum, character := character, summary := summary,
    canonical := false, ending := false, choices := [] }

/-- `Page.add_choice_obj(choice)`. -/
def Page.add_choice_obj (p : Page) (choice : Choice) : Except Err Page :=
  if (lookupA p.choices choice.target).isSome then
    .error (.exception ("Target " ++ choice.target.str ++ " already exists on page "
      ++ p.pagenum.str))
  else
    .ok { p with choices := dinsert p.choices choice.target choice }

/-- `Page.add_choice(target, summary)`. -/
def Page.add_choice (p : Page) (target : PageId) (summary : String) : Except Err Page :=
  p.add_choice_obj { target := target, summary := summary }

/-- `Page.delete_choice(target)`: `del self.choices[target]`, raising
    `KeyError` when absent. -/
def Page.delete_choice (p : Page) (target : PageId) : Except Err Page :=
  if (lookupA p.choices target).isSome then
    .ok { p with choices := derase p.choices target }
  else
    .error .keyError

/-- `Page.toggle_canonical()`. -/
def Page.toggle_canonical (p : Page) : Page := { p with canonical := !p.canonical }

/-- `Page.toggle_ending()`. -/
def Page.toggle_ending (p : Page) : Page := { p with ending := !p.ending }

/-- `Page.choices_sorted()`: choice values in sorted key order. -/
def Page.choices_sorted (p : Page) : List Choice :=
  (sortPageIds (keysA p.choices)).filterMap (lookupA p.choices)

/-- `class Book`. -/
structure Book where
  title : String
  filename : Option String
  heap : List Character
  characters : List (String × CharRef)
  pages : List (PageId × Page)
  intermediates : List PageId
deriving DecidableEq

/-- `Book(title)`: empty collections, no filename. -/
def Book.new (title : String) : Book :=
  { title := title, filename := none, heap := [], characters := [],
    pages := [], intermediates := [] }

/-- Dereference a character object (attribute access on the object). -/
def Book.getChar (b : Book) (r : CharRef) : Except Err Character :=
  match b.heap[r]? with
  | some c => .ok c
  | none => .error .keyError

/-- `Book.add_character_obj(char)` where the object `char` already lives on the
    heap at `r`. -/
def Book.add_character_obj (b : Book) (r : CharRef) : Except Err Book := do
  let c ← b.getChar r
  if (lookupA b.characters c.name).isSome then
    .error (.exception ("Character \"" ++ c.name ++ "\" is already present in book"))
  else
    .ok { b with characters := dinsert b.characters c.name r }

/-- Allocate a freshly constructed character object, then
    `add_character_obj`; this is the code path of `Character.from_dict` /
    `Character(name)` followed by `add_character_obj`. -/
def Book.add_character_new (b : Book) (c : Character) : Except Err Book :=
  Book.add_character_obj { b with heap := b.heap ++ [c] } b.heap.length

/-- `Book.add_character(name)`. -/
def Book.add_character (b : Book) (name : String) : Except Err Book :=
  b.add_character_new (Character.new name)

/-- `Book.rename_character(char, newname)`; `char` is the live object at `r`. -/
def Book.rename_character (b : Book) (r : CharRef) (newname : String) : Except Err Book := do
  let char ← b.getChar r
  -- `newname in self.characters and self.characters[newname] != char`
  -- (object identity comparison)
  let clash := match lookupA b.characters newname with
    | some r2 => decide (r2 ≠ r)
    | none => false
  if clash then
    .error (.exception ("Cannot rename character \"" ++ char.name ++ "\" to \""
      ++ newname ++ "\" because a character already exists with that name"))
  else
    -- `del self.characters[char.name]` (KeyError when absent)
    if (lookupA b.characters char.name).isSome then
      let b1 := { b with characters := derase b.characters char.name }
      -- `char.name = newname` mutates the shared object
      let b2 := { b1 with heap := b1.heap.set r { char with name := newname } }
      b2.add_character_obj r
    else
      .error .keyError

/-- `Book.pages_sorted()`. -/
def Book.pages_sorted (b : Book) : List Page :=
  (sortPageIds (keysA b.pages)).filterMap (lookupA b.pages)

/-- `Book.intermediates_sorted()`. -/
def Book.intermediates_sorted (b : Book) : List PageId :=
  sortPageIds b.intermediates

/-- `Book.delete_character(charname)`. -/
def Book.delete_character (b : Book) (charname : String) : Except Err Book :=
  if (lookupA b.characters charname).isNone then
    .error (.exception ("Character \"" ++ charname ++ "\" not found to delete!"))
  else
    match b.pages_sorted.find? (fun p =>
        (b.heap[p.character]?).map Character.name = some charname) with
    | some page =>
      .error (.exception ("Character \"" ++ charname ++ "\" is the active character on page "
        ++ page.pagenum.str ++ "!"))
    | none => .ok { b with characters := derase b.characters charname }

/-- `Book.add_page_obj(page)`. -/
def Book.add_page_obj (b : Book) (page : Page) : Except Err Book :=
  if (lookupA b.pages page.pagenum).isSome then
    .error (.exception ("Page " ++ page.pagenum.str ++ " already exists"))
  else
    .ok { b with pages := dinsert b.pages page.pagenum page }

/-- `Book.add_page(pagenum, character=c, summary=s)`. -/
def Book.add_page (b : Book) (pagenum : PageId) (character : CharRef)
    (summary : String) : Except Err Book :=
  b.add_page_obj (Page.new pagenum character summary)

/-- `Book.add_intermediate(pagenum)`: `self.intermediates[pagenum] = True`,
    never an error. -/
def Book.add_intermediate (b : Book) (pagenum : PageId) : Book :=
  { b with intermediates := sinsert b.intermediates pagenum }

/-- `Book.delete_intermediate(pagenum)`: guarded delete, never an error. -/
def Book.delete_intermediate (b : Book) (pagenum : PageId) : Book :=
  if pagenum ∈ b.intermediates then
    { b with intermediates := serase b.intermediates pagenum }
  else b

/-- `Book.has_intermediate(pagenum)`. -/
def Book.has_intermediate (b : Book) (pagenum : PageId) : Bool :=
  decide (pagenum ∈ b.intermediates)

/-- `Book.delete_page(pagenum)`: unguarded `del`, `KeyError` when absent. -/
def Book.delete_page (b : Book) (pagenum : PageId) : Except Err Book :=
  if (lookupA b.pages pagenum).isSome then
    .ok { b with pages := derase b.pages pagenum }
  else
    .error .keyError

/-! ## Serialization codec (`to_dict` / `from_dict`, `get_savedict` / `load_from_dict`) -/

/-- `Choice.to_dict()`: dict with keys `target`, `summary`. -/
structure ChoiceDict where
  target : PageId
  summary : String
deriving DecidableEq

def Choice.to_dict (c : Choice) : ChoiceDict :=
  { target := c.target, summary := c.summary }

def Choice.from_dict (d : ChoiceDict) : Choice :=
  { target := d.target, summary := d.summary }

/-- `Character.to_dict()`: dict with keys `name`, `graphviz_fillcolor`,
    `graphviz_fontcolor`. -/
structure CharDict where
  name : String
  graphviz_fillcolor : String
  graphviz_fontcolor : String
deriving DecidableEq

def Character.to_dict (c : Character) : CharDict :=
  { name := c.name, graphviz_fillcolor := c.fillcolor, graphviz_fontcolor := c.fontcolor }

def Character.from_dict (d : CharDict) : Character :=
  { name := d.name, fillcolor := d.graphviz_fillcolor, fontcolor := d.graphviz_fontcolor }

/-- `Page.to_dict()` output: `character` is stored as the character name. -/
structure PageDict where
  pagenum : PageId
  character : String
  summary : String
  canonical : Bool
  ending : Bool
  choices : List (PageId × ChoiceDict)
deriving DecidableEq

/-- `Page.to_dict()`; `self.character.name` dereferences the shared object. -/
def Page.to_dict (p : Page) (heap : List Character) : Except Err PageDict := do
  let c ← match heap[p.character]? with
    | some c => Except.ok c
    | none => Except.error Err.keyError
  .ok { pagenum := p.pagenum, character := c.name, summary := p.summary,
        canonical := p.canonical, ending := p.ending,
        choices := p.choices.foldl
          (fun d e => dinsert d e.2.target e.2.to_dict) [] }

/-- `Page.from_dict(pagedict, characters)`. -/
def Page.from_dict (d : PageDict) (characters : List (String × CharRef)) :
    Except Err Page := do
  let r ← match lookupA characters d.character with
    | some r => Except.ok r
    | none => Except.error (Err.exception ("Character \"" ++ d.character
        ++ "\" not found for page " ++ d.pagenum.str))
  let page : Page := { pagenum := d.pagenum, character := r, summary := d.summary,
                       canonical := d.canonical, ending := d.ending, choices := [] }
  d.choices.foldlM (fun p e => p.add_choice_obj (Choice.from_dict e.2)) page

/-- The top-level savedict.  `title` models `savedict['book']['title']`;
    `intermediates` is a list, and optional on read. -/
structure SaveDict where
  title : String
  characters : List (String × CharDict)
  pages : List (PageId × PageDict)
  intermediates : Option (List PageId)
deriving DecidableEq

/-- `Book.get_savedict()`. -/
def Book.get_savedict (b : Book) : Except Err SaveDict := do
  if b.characters.length = 0 then
    .error (.exception "Refusing to save game with no characters defined")
  else if b.pages.length = 0 then
    .error (.exception "Refusing to save game with no pages defined")
  else
    let cds ← b.characters.foldlM
      (fun d e => do
        let c ← b.getChar e.2
        Except.ok (dinsert d c.name c.to_dict)) []
    let pds ← b.pages.foldlM
      (fun d e => do
        let pd ← e.2.to_dict b.heap
        Except.ok (dinsert d e.2.pagenum pd)) []
    .ok { title := b.title, characters := cds, pages := pds,
          intermediates := some b.intermediates_sorted }

/-- `Book.save(filename)`: resolves the filename, builds the savedict, and only
    then opens and writes the file.  A successful result is the performed write
    (destination filename and content); an error is a raise with no write. -/
def Book.save (b : Book) (filename : Option String) : Except Err (String × SaveDict) := do
  if filename.isNone ∧ b.filename.isNone then
    .error (.exception "No filename has been specified to save!")
  else
    let fn := match filename with
      | some f => f
      | none => b.filename.getD ""
    let sd ← b.get_savedict
    .ok (fn, sd)

/-- `Book.load_from_dict(savedict)`. -/
def Book.load_from_dict (sd : SaveDict) : Except Err Book := do
  let book := Book.new sd.title
  -- "intermediates" is a new variable, do not rely on it being in the file
  let book := match sd.intermediates with
    | some l => l.foldl Book.add_intermediate book
    | none => book
  let book ← sd.characters.foldlM
    (fun bk e => bk.add_character_new (Character.from_dict e.2)) book
  sd.pages.foldlM
    (fun bk e => do
      let p ← Page.from_dict e.2 bk.characters
      bk.add_page_obj p) book

/-- `decode(encode(book))`. -/
def Book.roundTrip (b : Book) : Except Err Book :=
  b.get_savedict >>= Book.load_from_dict

/-! ## Structural book equality (field-for-field, references resolved) -/

/-- A page with its character reference resolved to the character name. -/
structure PageView where
  pagenum : PageId
  charname : Option String
  summary : String
  canonical : Bool
  ending : Bool
  choices : List (PageId × Choice)
deriving DecidableEq

def Book.pageView (b : Book) (p : Page) : PageView :=
  { pagenum := p.pagenum, charname := (b.heap[p.character]?).map Character.name,
    summary := p.summary, canonical := p.canonical, ending := p.ending,
    choices := p.choices }

/-- The characters dict with references resolved to character records. -/
def Book.resolvedChars (b : Book) : List (String × Option Character) :=
  b.characters.map (fun e => (e.1, b.heap[e.2]?))

/-- The pages dict with character references resolved. -/
def Book.resolvedPages (b : Book) : List (PageId × PageView) :=
  b.pages.map (fun e => (e.1, b.pageView e.2))

/-- Structural equality of two books: same title, same characters (name and
    both color strings), same pages (pagenum, character name, summary, flags
    and choice dict), and the same intermediates set. -/
def bookEquiv (a b : Book) : Prop :=
  a.title = b.title ∧ a.resolvedChars = b.resolvedChars ∧
    a.resolvedPages = b.resolvedPages ∧
    (∀ k ∈ a.intermediates, k ∈ b.intermediates) ∧
    (∀ k ∈ b.intermediates, k ∈ a.intermediates)

/-! ## Well-formedness of a book (what live Python object graphs satisfy) -/

/-- Well-formedness: dict keys are unique, every character entry resolves to a
    live object carrying the entry key as its name, every page is keyed by its
    own `pagenum`, uses a character object that is a value of the characters
    dict, and keys each choice by the choice target. -/
def Book.wfB (b : Book) : Bool :=
  nodupKeysB b.characters && nodupKeysB b.pages && nodupB b.intermediates &&
  b.characters.all (fun e =>
    match b.heap[e.2]? with
    | some c => decide (c.name = e.1)
    | none => false) &&
  b.pages.all (fun e =>
    decide (e.2.pagenum = e.1) &&
    b.characters.any (fun ce => decide (ce.2 = e.2.character)) &&
    nodupKeysB e.2.choices &&
    e.2.choices.all (fun ch => decide (ch.2.target = ch.1)))

/-! ## Graph exporter (`App.export_dot`, `App.generate_graphviz`) -/

/-- Python `s.replace(c, rep)` for a single-character pattern (the only form
    the program uses). -/
def replaceChar (s : String) (c : Char) (rep : String) : String :=
  String.mk (s.data.flatMap (fun ch => if ch = c then rep.data else [ch]))

/-- `summary.replace('"', '\\"')` (visited page labels). -/
def quoteEsc (s : String) : String := replaceChar s '"' "\\\""

/-- `summary.replace('>', '').replace('<', '')` (unvisited page labels). -/
def stripAngles (s : String) : String := replaceChar (replaceChar s '>' "") '<' ""

/-- Python `filename.split('.')` (single-character separator). -/
def splitChar (c : Char) (s : String) : List String :=
  (s.data.foldr (fun ch acc =>
    match acc with
    | [] => if ch = c then [[], []] else [[ch]]
    | g :: t => if ch = c then [] :: g :: t else (ch :: g) :: t) [[]]).map String.mk

/-- The node declaration string built for a visited page in `export_dot`.
    The character object is dereferenced only in the non-ending branch, as in
    the source; `styles` always contains at least `filled`, so the final
    `if len(styles) > 0` of the source is always taken. -/
def Book.visitedLabel (b : Book) (p : Page) : Except Err String := do
  let labelstr := "label=\"Page " ++ p.pagenum.str ++ " - " ++ quoteEsc p.summary ++ "\""
  let labelstr := if p.canonical then labelstr ++ " shape=box" else labelstr
  let styles := if p.canonical then ["filled", "bold"] else ["filled"]
  let labelstr ←
    if p.ending then
      pure (labelstr ++ " fontcolor=white fillcolor=azure4")
    else do
      let c ← b.getChar p.character
      pure (labelstr ++ " fontcolor=" ++ c.fontcolor ++ " fillcolor=" ++ c.fillcolor)
  .ok (labelstr ++ " style=\"" ++ String.intercalate "," styles ++ "\"")

/-- The text stored in `unknown_pages[choice.target]`. -/
def unvisitedText (t : PageId) (summary : String) : String :=
  "(Page " ++ t.str ++ " - " ++ stripAngles summary ++ ")"

/-- The `unknown_pages` dict of `export_dot`: targets of choices that are not
    real pages, in page-then-choice sorted iteration order, with the label
    text overwritten on repeated targets. -/
def Book.unknownPages (b : Book) : List (PageId × String) :=
  b.pages_sorted.foldl (fun up p =>
    p.choices_sorted.foldl (fun up c =>
      if (lookupA b.pages c.target).isSome then up
      else dinsert up c.target (unvisitedText c.target c.summary)) up) []

/-- The `all_pages` dict of `export_dot`: visited page labels, then unvisited
    labels wrapped in italic markup. -/
def Book.allPages (b : Book) : Except Err (List (PageId × String)) := do
  let visited ← b.pages_sorted.foldlM (fun ap p => do
    let l ← b.visitedLabel p
    pure (dinsert ap p.pagenum l)) ([] : List (PageId × String))
  pure (b.unknownPages.foldl
    (fun ap e => dinsert ap e.1 ("label=<<i>" ++ e.2 ++ "</i>>")) visited)

/-- The lines `export_dot` writes to the DOT file, in order. -/
def Book.exportDotLines (b : Book) (dot_filename : String) : Except Err (List String) := do
  let fileparts := splitChar '.' dot_filename
  let ap ← b.allPages
  let nodeLines := (sortPageIds (keysA ap)).filterMap (fun k =>
    (lookupA ap k).map (fun v => "\t" ++ k.str ++ " [" ++ v ++ "];\n"))
  let edgeLines := b.pages_sorted.flatMap (fun p =>
    p.choices_sorted.map (fun c => "\t" ++ p.pagenum.str ++ " -> " ++ c.target.str ++ ";\n"))
  .ok (["digraph " ++ fileparts.headD "" ++ " \x7b\n", "\n", "\t// Pages\n"]
    ++ nodeLines ++ ["\n", "\t// Choices\n"] ++ edgeLines ++ ["\n", "\x7d\n"])

/-- Result of `App.export_dot`: the overwrite prompt was declined (returns
    False, nothing written), or the file was written. -/
inductive DotOutcome where
  | refused
  | written (filename : String) (lines : List String)
deriving DecidableEq

/-- `App.export_dot(dot_filename)`.  `file_exists` is the
    `os.path.exists(dot_filename)` observation and `overwrite_ok` the reply to
    the overwrite prompt. -/
def App.export_dot (b : Book) (dot_filename : String)
    (file_exists overwrite_ok : Bool) : Except Err DotOutcome := do
  if file_exists && !overwrite_ok then
    .ok .refused
  else
    let lines ← b.exportDotLines dot_filename
    .ok (.written dot_filename lines)

/-- Result of the DOT stage of `App.generate_graphviz`. -/
inductive GvResult where
  | conflict
  | export (r : DotOutcome)
deriving DecidableEq

/-- The DOT-export stage of `App.generate_graphviz`: build the default
    filename, take the user-requested filename (empty input selects the
    default), refuse when it equals the book data filename, otherwise hand off
    to `export_dot`. -/
def resolvedDotName (app_filename requested : String) : String :=
  if requested = "" then (splitChar '.' app_filename).headD "" ++ ".dot" else requested

def App.generate_graphviz_dot (b : Book) (app_filename requested : String)
    (file_exists overwrite_ok : Bool) : Except Err GvResult := do
  -- default_file = filename_parts[0] + '.dot'; empty input selects the default
  let filename := resolvedDotName app_filename requested
  if filename = app_filename then
    .ok .conflict
  else
    (App.export_dot b filename file_exists overwrite_ok).map .export

/-- The `-d DOTFILE` branch of `App.run`: the loaded book is exported straight
    through `export_dot`, with no comparison against the book data filename. -/
def App.run_dot_mode (b : Book) (do_dot : String)
    (file_exists overwrite_ok : Bool) : Except Err DotOutcome :=
  App.export_dot b do_dot file_exists overwrite_ok

/-! ## Interactive page / intermediate commands (`App`) -/

/-- One accepted page number in the `App.add_intermediate` loop: refuse ids of
    real pages and ids already marked, otherwise `Book.add_intermediate`. -/
def App.add_intermediate_step (b : Book) (pagenum : PageId) : Book :=
  if (lookupA b.pages pagenum).isSome then b
  else if b.has_intermediate pagenum then b
  else b.add_intermediate pagenum

/-- `App.page_switch` effect on the book: refuse intermediates, switch to
    existing pages (no mutation), otherwise `create_page` (an empty summary
    cancels). -/
def App.page_switch (b : Book) (pagenum : PageId) (cur_char : CharRef)
    (summary : String) : Book :=
  if b.has_intermediate pagenum then b
  else if (lookupA b.pages pagenum).isSome then b
  else if summary = "" then b
  else
    match b.add_page pagenum cur_char summary with
    | .ok b2 => b2
    | .error _ => b

/-- `App.delete_page` effect on the book: refuse the current page, otherwise
    `Book.delete_page` with the `KeyError` caught (book unchanged). -/
def App.delete_page_step (b : Book) (cur_page pagenum : PageId) : Book :=
  if pagenum = cur_page then b
  else
    match b.delete_page pagenum with
    | .ok b2 => b2
    | .error _ => b

/-- One interactive command of the App that touches the pages or
    intermediates collections. -/
inductive AppOp where
  | addInter (pagenum : PageId)
  | pageSwitch (pagenum : PageId) (cur_char : CharRef) (summary : String)
  | delPage (cur_page pagenum : PageId)
  | delInter (pagenum : PageId)

/-- The book after one App command. -/
def App.applyOp (b : Book) : AppOp → Book
  | .addInter k => App.add_intermediate_step b k
  | .pageSwitch k cc s => App.page_switch b k cc s
  | .delPage cur k => App.delete_page_step b cur k
  | .delInter k => b.delete_intermediate k

/-! ## Missing-page report (`App.list_pages`) -/

/-- `isinstance(x, int)` filter on page ids. -/
def PageId.toInt? : PageId → Option Int
  | .num n => some n
  | .label _ => none

/-- Python 2 `range(1, m+1)` as a list. -/
def intRange1 (m : Int) : List Int :=
  (List.range m.toNat).map (fun (i : Nat) => (i : Int) + 1)

/-- Python 2 `del lst[idx]` on a list, with negative-index semantics and
    `IndexError` out of range. -/
def pyDelIdx (l : List Int) (idx : Int) : Except Err (List Int) :=
  if 0 ≤ idx then
    if idx.toNat < l.length then .ok (l.eraseIdx idx.toNat) else .error .indexError
  else
    let j := (l.length : Int) + idx
    if 0 ≤ j then .ok (l.eraseIdx j.toNat) else .error .indexError

/-- The missing-pages computation at the end of `App.list_pages`:
    `pages = sorted([x for x in set(pages.keys() + intermediates.keys()) if isinstance(x, int)])`,
    `last_page = pages[-1]`, `total_pages = range(1, last_page + 1)`, then
    `del total_pages[page - 1]` for each page in `reversed(pages)`. -/
def App.missing_pages (b : Book) : Except Err (List Int) := do
  let pagesI := (((keysA b.pages ++ b.intermediates).filterMap PageId.toInt?).dedup).insertionSort
    (fun a b => a ≤ b)
  match pagesI.getLast? with
  | none => .error .indexError
  | some last_page =>
    let total_pages := intRange1 last_page
    pagesI.reverse.foldlM (fun l p => pyDelIdx l (p - 1)) total_pages

/-! ## Specification-side definitions (stated from the claims, for comparison
     with the code-side definitions above) -/

/-- The integer ids among real and intermediate pages. -/
def Book.intIds (b : Book) : List Int :=
  (keysA b.pages ++ b.intermediates).filterMap PageId.toInt?

/-- The gap set the claim describes: integers between 1 and the maximum used
    integer id that are neither real page ids nor intermediate ids. -/
def claimGaps (b : Book) : List Int :=
  match b.intIds with
  | [] => []
  | x :: xs => (intRange1 (xs.foldl max x)).filter (fun n => decide (n ∉ b.intIds))

/-- All choices of the book in page-then-choice sorted iteration order. -/
def Book.allChoicesSorted (b : Book) : List Choice :=
  b.pages_sorted.flatMap Page.choices_sorted

/-- The claim's label for an unvisited target: the text from the last choice
    targeting it, in page-then-choice sorted iteration order. -/
def Book.lastLabelFor (b : Book) (t : PageId) : Option String :=
  ((b.allChoicesSorted.filter (fun c => decide (c.target = t))).getLast?).map
    (fun c => unvisitedText t c.summary)

/-- The visited node declaration as a pure function of the page id, the page
    summary, the two flags and the owning character colors only (stated for
    claim C8, to compare with `Book.visitedLabel`, which reads those values
    out of the live page and character objects). -/
def nodeDecl (pagenum : PageId) (summary : String) (ending canonical : Bool)
    (fontcolor fillcolor : String) : String :=
  let labelstr := "label=\"Page " ++ pagenum.str ++ " - " ++ quoteEsc summary ++ "\""
  let labelstr := if canonical then labelstr ++ " shape=box" else labelstr
  let styles := if canonical then ["filled", "bold"] else ["filled"]
  let labelstr :=
    if ending then labelstr ++ " fontcolor=white fillcolor=azure4"
    else labelstr ++ " fontcolor=" ++ fontcolor ++ " fillcolor=" ++ fillcolor
  labelstr ++ " style=\"" ++ String.intercalate "," styles ++ "\""

/-- The invariant of claim C2: no id is simultaneously a real page and an
    intermediate marker. -/
def pagesInterDisjoint (b : Book) : Prop :=
  ∀ k ∈ keysA b.pages, k ∉ b.intermediates

/-- The invariant of claim C3: every page's character object is a value of the
    characters dict. -/
def charRefInv (b : Book) : Prop :=
  ∀ e ∈ b.pages, ∃ ce ∈ b.characters, ce.2 = e.2.character

/-! ## Concrete instances used by witnesses and counterexamples -/

/-- The character of the C8 scenario (default colors). -/
def aliceC : Character := { name := "Alice", fillcolor := "white", fontcolor := "black" }

def pageOneC : Page :=
  { pagenum := .num 1, character := 0, summary := "Start", canonical := false,
    ending := false, choices := [(.num 2, { target := .num 2, summary := "go on" })] }

def pageTwoC : Page :=
  { pagenum := .num 2, character := 0, summary := "End", canonical := false,
    ending := true, choices := [] }

/-- The book of the C8 scenario: title Test, character Alice, page 1 with a
    choice to page 2, page 2 an ending. -/
def testBookC : Book :=
  { title := "Test", filename := some "book.yaml", heap := [aliceC],
    characters := [("Alice", 0)], pages := [(.num 1, pageOneC), (.num 2, pageTwoC)],
    intermediates := [] }

def bobC : Character := { name := "Bob", fillcolor := "red", fontcolor := "blue" }

/-- A two-character book with no pages. -/
def twoCharBook : Book :=
  { title := "T", filename := none, heap := [aliceC, bobC],
    characters := [("Alice", 0), ("Bob", 1)], pages := [], intermediates := [] }

/-- The C8 book extended with an intermediate page 3 (used by witnesses that
    need a nonempty intermediates set). -/
def mixBook : Book :=
  { testBookC with intermediates := [.num 3] }

def pLastA : Page :=
  { pagenum := .num 1, character := 0, summary := "one", canonical := false,
    ending := false, choices := [(.num 9, { target := .num 9, summary := "first" })] }

def pLastB : Page :=
  { pagenum := .num 2, character := 0, summary := "two", canonical := false,
    ending := false, choices := [(.num 9, { target := .num 9, summary := "second" })] }

/-- Two pages whose choices both target the missing page 9, with different
    summaries. -/
def lastWinsBook : Book :=
  { title := "T", filename := none, heap := [aliceC], characters := [("Alice", 0)],
    pages := [(.num 1, pLastA), (.num 2, pLastB)], intermediates := [] }

def plainPage (n : Int) : Page :=
  { pagenum := .num n, character := 0, summary := "p", canonical := false,
    ending := false, choices := [] }

/-- Real pages 1, 2 and 5, intermediate 4: the missing-page report is [3]. -/
def gapBook : Book :=
  { title := "T", filename := none, heap := [aliceC], characters := [("Alice", 0)],
    pages := [(.num 1, plainPage 1), (.num 2, plainPage 2), (.num 5, plainPage 5)],
    intermediates := [.num 4] }

/-- Real pages 0 and 2 (page number zero is a legal input to the program). -/
def zeroBook : Book :=
  { title := "T", filename := none, heap := [aliceC], characters := [("Alice", 0)],
    pages := [(.num 0, plainPage 0), (.num 2, plainPage 2)], intermediates := [] }

/-- Total view of heap dereferencing (used to state the codec lemmas; the
    default is never reached on well-formed books). -/
def Book.resolveChar (b : Book) (r : CharRef) : Character :=
  (b.heap[r]?).getD { name := "", fillcolor := "", fontcolor := "" }

/-- The page dict `get_savedict` produces for a page of a well-formed book. -/
def pageDictOf (b : Book) (p : Page) : PageDict :=
  { pagenum := p.pagenum, character := (b.resolveChar p.character).name,
    summary := p.summary, canonical := p.canonical, ending := p.ending,
    choices := p.choices.map (fun ch => (ch.1, ch.2.to_dict)) }

/-- The page `load_from_dict` rebuilds from a page dict, given the characters
    dict of the book under construction. -/
def pageOf (bk : Book) (pd : PageDict) : Page :=
  { pagenum := pd.pagenum, character := (lookupA bk.characters pd.character).getD 0,
    summary := pd.summary, canonical := pd.canonical, ending := pd.ending,
    choices := pd.choices.map (fun ch => (ch.1, Choice.from_dict ch.2)) }

/-! ## Dictionary lemmas -/

section DictLemmas

variable {K V : Type} [DecidableEq K]

theorem lookupA_eq_none_iff {l : List (K × V)} {k : K} :
    lookupA l k = none ↔ k ∉ keysA l := by
  induction l with
  | nil => simp [lookupA, keysA]
  | cons e t ih =>
    obtain ⟨k1, v1⟩ := e
    by_cases h : k = k1 <;> simp [lookupA, keysA, h] at ih ⊢ <;> simpa [keysA] using ih

theorem lookupA_isSome_iff {l : List (K × V)} {k : K} :
    (lookupA l k).isSome = true ↔ k ∈ keysA l := by
  rcases h : lookupA l k with _ | v
  · simpa using lookupA_eq_none_iff.mp h
  · simp only [Option.isSome_some, true_iff]
    by_contra hk
    rw [lookupA_eq_none_iff.mpr hk] at h
    exact Option.noConfusion h

theorem mem_of_lookupA_eq_some {l : List (K × V)} {k : K} {v : V}
    (h : lookupA l k = some v) : (k, v) ∈ l := by
  induction l with
  | nil => simp [lookupA] at h
  | cons e t ih =>
    obtain ⟨k1, v1⟩ := e
    by_cases hk : k = k1
    · subst hk
      simp [lookupA] at h
      simp [h]
    · simp [lookupA, hk] at h
      exact List.mem_cons_of_mem _ (ih h)

theorem lookupA_eq_some_of_mem {l : List (K × V)} {k : K} {v : V}
    (hnd : (keysA l).Nodup) (h : (k, v) ∈ l) : lookupA l k = some v := by
  induction l with
  | nil => simp at h
  | cons e t ih =>
    obtain ⟨k1, v1⟩ := e
    simp only [keysA, List.map_cons, List.nodup_cons] at hnd
    rcases List.mem_cons.mp h with h1 | h1
    · obtain ⟨rfl, rfl⟩ := Prod.mk.injEq .. ▸ Prod.ext_iff.mp h1
      simp [lookupA]
    · have hk : k ≠ k1 := by
        rintro rfl
        exact hnd.1 (List.mem_map.mpr ⟨(k, v), h1, rfl⟩)
      simpa [lookupA, hk] using ih hnd.2 h1

theorem lookupA_dinsert_self (l : List (K × V)) (k : K) (v : V) :
    lookupA (dinsert l k v) k = some v := by
  induction l with
  | nil => simp [dinsert, lookupA]
  | cons e t ih =>
    obtain ⟨k1, v1⟩ := e
    by_cases h : k = k1 <;> simp [dinsert, h, lookupA, ih]

theorem lookupA_dinsert_ne {l : List (K × V)} {k k' : K} {v : V} (h : k' ≠ k) :
    lookupA (dinsert l k v) k' = lookupA l k' := by
  induction l with
  | nil => simp [dinsert, lookupA, h]
  | cons e t ih =>
    obtain ⟨k1, v1⟩ := e
    by_cases h1 : k = k1
    · subst h1
      simp [dinsert, lookupA, h]
    · by_cases h2 : k' = k1 <;> simp [dinsert, lookupA, h1, h2, ih]

theorem dinsert_of_not_mem {l : List (K × V)} {k : K} (v : V) (h : k ∉ keysA l) :
    dinsert l k v = l ++ [(k, v)] := by
  induction l with
  | nil => simp [dinsert]
  | cons e t ih =>
    obtain ⟨k1, v1⟩ := e
    simp only [keysA, List.map_cons, List.mem_cons, not_or] at h
    simp [dinsert, h.1, ih (by simpa [keysA] using h.2)]

theorem keysA_dinsert (l : List (K × V)) (k : K) (v : V) :
    keysA (dinsert l k v) = if k ∈ keysA l then keysA l else keysA l ++ [k] := by
  induction l with
  | nil => simp [dinsert, keysA]
  | cons e t ih =>
    obtain ⟨k1, v1⟩ := e
    by_cases h : k = k1
    · subst h
      simp [dinsert, keysA]
    · have hmem : k ∈ keysA ((k1, v1) :: t) ↔ k ∈ keysA t := by simp [keysA, h]
      rw [show dinsert ((k1, v1) :: t) k v = (k1, v1) :: dinsert t k v from by
        simp [dinsert, h]]
      by_cases h2 : k ∈ keysA t
      · rw [if_pos (hmem.mpr h2), if_pos h2] at *
        simp only [keysA, List.map_cons] at ih ⊢
        rw [ih]
      · rw [if_neg (fun hc => h2 (hmem.mp hc)), if_neg h2] at *
        simp only [keysA, List.map_cons, List.cons_append] at ih ⊢
        rw [ih]

theorem mem_keysA_dinsert {l : List (K × V)} {k a : K} {v : V} :
    a ∈ keysA (dinsert l k v) ↔ a ∈ keysA l ∨ a = k := by
  rw [keysA_dinsert]
  by_cases h : k ∈ keysA l
  · rw [if_pos h]
    constructor
    · exact Or.inl
    · rintro (h1 | rfl)
      exacts [h1, h]
  · rw [if_neg h]
    simp

theorem nodup_keysA_dinsert {l : List (K × V)} {k : K} {v : V}
    (h : (keysA l).Nodup) : (keysA (dinsert l k v)).Nodup := by
  rw [keysA_dinsert]
  by_cases hm : k ∈ keysA l
  · simpa [hm] using h
  · rw [if_neg hm]
    refine List.Nodup.append h (List.nodup_singleton k) ?_
    intro a ha hb
    rw [List.mem_singleton] at hb
    exact hm (hb ▸ ha)

theorem keysA_cons (k : K) (v : V) (t : List (K × V)) :
    keysA ((k, v) :: t) = k :: keysA t := rfl

theorem valuesA_cons (k : K) (v : V) (t : List (K × V)) :
    valuesA ((k, v) :: t) = v :: valuesA t := rfl

theorem mem_dinsert {l : List (K × V)} {k : K} {v : V} {e : K × V}
    (h : e ∈ dinsert l k v) : e ∈ l ∨ e = (k, v) := by
  induction l with
  | nil => simpa [dinsert] using h
  | cons e1 t ih =>
    obtain ⟨k1, v1⟩ := e1
    by_cases hk : k = k1
    · subst hk
      rcases List.mem_cons.mp (by simpa [dinsert] using h) with h1 | h1
      · exact Or.inr h1
      · exact Or.inl (List.mem_cons_of_mem _ h1)
    · rcases List.mem_cons.mp (by simpa [dinsert, hk] using h) with h1 | h1
      · exact Or.inl (by simp [h1])
      · rcases ih h1 with h2 | h2
        · exact Or.inl (List.mem_cons_of_mem _ h2)
        · exact Or.inr h2

theorem mem_dinsert_of_ne {l : List (K × V)} {k : K} {v : V} {e : K × V}
    (he : e ∈ l) (hk : e.1 ≠ k) : e ∈ dinsert l k v := by
  induction l with
  | nil => simp at he
  | cons e1 t ih =>
    obtain ⟨k1, v1⟩ := e1
    by_cases h1 : k = k1
    · subst h1
      rcases List.mem_cons.mp he with h2 | h2
      · exact absurd (by simp [h2]) hk
      · simp [dinsert, List.mem_cons_of_mem _ h2]
    · rcases List.mem_cons.mp he with h2 | h2
      · simp [dinsert, h1, h2]
      · simp only [dinsert, if_neg h1]
        exact List.mem_cons_of_mem _ (ih h2)

theorem mem_derase_of_ne {l : List (K × V)} {k : K} {e : K × V}
    (he : e ∈ l) (hk : e.1 ≠ k) : e ∈ derase l k := by
  induction l with
  | nil => simp at he
  | cons e1 t ih =>
    obtain ⟨k1, v1⟩ := e1
    by_cases h1 : k = k1
    · subst h1
      rcases List.mem_cons.mp he with h2 | h2
      · exact absurd (by simp [h2]) hk
      · simp [derase, h2]
    · rcases List.mem_cons.mp he with h2 | h2
      · simp [derase, h1, h2]
      · simp only [derase, if_neg h1]
        exact List.mem_cons_of_mem _ (ih h2)

theorem lookupA_derase_ne {l : List (K × V)} {k k' : K} (h : k' ≠ k) :
    lookupA (derase l k) k' = lookupA l k' := by
  induction l with
  | nil => simp [derase]
  | cons e t ih =>
    obtain ⟨k1, v1⟩ := e
    by_cases h1 : k = k1
    · subst h1
      simp [derase, lookupA, h]
    · by_cases h2 : k' = k1 <;> simp [derase, lookupA, h1, h2, ih]

theorem lookupA_derase_self {l : List (K × V)} {k : K}
    (h : (keysA l).Nodup) : lookupA (derase l k) k = none := by
  induction l with
  | nil => simp [derase, lookupA]
  | cons e t ih =>
    obtain ⟨k1, v1⟩ := e
    rw [keysA_cons, List.nodup_cons] at h
    by_cases h1 : k = k1
    · subst h1
      simp only [derase, if_pos rfl]
      exact lookupA_eq_none_iff.mpr h.1
    · simp [derase, h1, lookupA, h1, ih h.2]

theorem keysA_derase_sublist (l : List (K × V)) (k : K) :
    (keysA (derase l k)).Sublist (keysA l) := by
  induction l with
  | nil => simp [derase]
  | cons e t ih =>
    obtain ⟨k1, v1⟩ := e
    by_cases h1 : k = k1
    · simpa [derase, h1, keysA] using (List.sublist_cons_self k1 (keysA t))
    · simpa [derase, h1, keysA] using ih.cons₂ k1

theorem nodup_keysA_derase {l : List (K × V)} {k : K}
    (h : (keysA l).Nodup) : (keysA (derase l k)).Nodup :=
  h.sublist (keysA_derase_sublist l k)

theorem nodupKeysB_iff {l : List (K × V)} :
    nodupKeysB l = true ↔ (keysA l).Nodup := by
  induction l with
  | nil => simp [nodupKeysB, keysA]
  | cons e t ih =>
    obtain ⟨k1, v1⟩ := e
    simp only [nodupKeysB, Bool.and_eq_true, List.all_eq_true, keysA, List.map_cons,
      List.nodup_cons, ih]
    constructor
    · rintro ⟨h1, h2⟩
      refine ⟨?_, h2⟩
      intro hmem
      obtain ⟨e, he, heq⟩ := List.mem_map.mp hmem
      exact absurd heq (by simpa using h1 e he)
    · rintro ⟨h1, h2⟩
      refine ⟨?_, h2⟩
      intro e he
      simp only [decide_eq_true_eq]
      intro heq
      exact h1 (List.mem_map.mpr ⟨e, he, heq⟩)

end DictLemmas

section SetLemmas

variable {K : Type} [DecidableEq K]

theorem mem_sinsert {l : List K} {k a : K} :
    a ∈ sinsert l k ↔ a ∈ l ∨ a = k := by
  induction l with
  | nil => simp [sinsert]
  | cons x t ih =>
    by_cases h : k = x
    · subst h
      constructor
      · intro ha
        exact Or.inl (by simpa [sinsert] using ha)
      · rintro (h1 | rfl)
        · simp [sinsert, h1]
        · simp [sinsert]
    · simp only [sinsert, if_neg h, List.mem_cons, ih]
      rw [or_assoc]

theorem sinsert_of_not_mem {l : List K} {k : K} (h : k ∉ l) :
    sinsert l k = l ++ [k] := by
  induction l with
  | nil => simp [sinsert]
  | cons x t ih =>
    simp only [List.mem_cons, not_or] at h
    simp [sinsert, Ne.symm h.1, h.1, ih h.2]

theorem serase_sublist (l : List K) (k : K) : (serase l k).Sublist l := by
  induction l with
  | nil => simp [serase]
  | cons x t ih =>
    by_cases h : k = x
    · simpa [serase, h] using List.sublist_cons_self x t
    · simpa [serase, h] using ih.cons₂ x

theorem nodup_sinsert {l : List K} {k : K} (h : l.Nodup) : (sinsert l k).Nodup := by
  by_cases hk : k ∈ l
  · have : sinsert l k = l := by
      induction l with
      | nil => simp at hk
      | cons x t ih =>
        rcases List.mem_cons.mp hk with rfl | h1
        · simp [sinsert]
        · by_cases h2 : k = x
          · simp [sinsert, h2]
          · simp [sinsert, h2, ih (List.nodup_cons.mp h).2 h1]
    simpa [this] using h
  · rw [sinsert_of_not_mem hk]
    refine List.Nodup.append h (List.nodup_singleton k) ?_
    intro a ha hb
    rw [List.mem_singleton] at hb
    exact hk (hb ▸ ha)

theorem nodupB_iff {l : List K} : nodupB l = true ↔ l.Nodup := by
  induction l with
  | nil => simp [nodupB]
  | cons x t ih =>
    simp only [nodupB, Bool.and_eq_true, List.all_eq_true, List.nodup_cons, ih]
    constructor
    · rintro ⟨h1, h2⟩
      exact ⟨fun hmem => by simpa using h1 x hmem, h2⟩
    · rintro ⟨h1, h2⟩
      refine ⟨fun e he => ?_, h2⟩
      simp only [decide_eq_true_eq]
      rintro rfl
      exact h1 he

end SetLemmas

/-! ## Sorted-view lemmas -/

theorem sortPageIds_perm (l : List PageId) : (sortPageIds l).Perm l :=
  List.perm_insertionSort _ _

theorem filterMap_lookupA_keysA {K V : Type} [DecidableEq K] {m : List (K × V)}
    (h : (keysA m).Nodup) : (keysA m).filterMap (lookupA m) = valuesA m := by
  induction m with
  | nil => rfl
  | cons e t ih =>
    obtain ⟨k1, v1⟩ := e
    rw [keysA_cons, List.nodup_cons] at h
    rw [keysA_cons, valuesA_cons,
      List.filterMap_cons_some (show lookupA ((k1, v1) :: t) k1 = some v1 by
        simp [lookupA])]
    have hcongr : (keysA t).filterMap (lookupA ((k1, v1) :: t)) =
        (keysA t).filterMap (lookupA t) := by
      refine List.filterMap_congr ?_
      intro k hk
      have hne : k ≠ k1 := fun hkk => h.1 (hkk ▸ hk)
      simp [lookupA, hne]
    rw [hcongr, ih h.2]

theorem pages_sorted_perm {b : Book} (h : (keysA b.pages).Nodup) :
    b.pages_sorted.Perm (valuesA b.pages) := by
  unfold Book.pages_sorted
  have h1 : ((sortPageIds (keysA b.pages)).filterMap (lookupA b.pages)).Perm
      ((keysA b.pages).filterMap (lookupA b.pages)) :=
    (sortPageIds_perm (keysA b.pages)).filterMap _
  rw [filterMap_lookupA_keysA h] at h1
  exact h1

theorem mem_pages_sorted {b : Book} (h : (keysA b.pages).Nodup) {p : Page} :
    p ∈ b.pages_sorted ↔ p ∈ valuesA b.pages :=
  (pages_sorted_perm h).mem_iff

/-! ## Except monad reduction -/

@[simp]
theorem ok_bind {α β : Type} (a : α) (f : α → Except Err β) :
    (Except.ok a : Except Err α) >>= f = f a := rfl

@[simp]
theorem error_bind {α β : Type} (e : Err) (f : α → Except Err β) :
    (Except.error e : Except Err α) >>= f = Except.error e := rfl

@[simp]
theorem map_ok {α β : Type} (g : α → β) (a : α) :
    (Except.ok a : Except Err α).map g = Except.ok (g a) := rfl

@[simp]
theorem map_error {α β : Type} (g : α → β) (e : Err) :
    (Except.error e : Except Err α).map g = Except.error e := rfl

@[simp]
theorem pure_eq_ok {α : Type} (a : α) : (pure a : Except Err α) = Except.ok a := rfl

/-! ## Well-formedness unpacking -/

theorem wfB_unpack {b : Book} (h : b.wfB = true) :
    (keysA b.characters).Nodup ∧ (keysA b.pages).Nodup ∧ b.intermediates.Nodup ∧
    (∀ e ∈ b.characters, ∃ c, b.heap[e.2]? = some c ∧ c.name = e.1) ∧
    (∀ e ∈ b.pages, e.2.pagenum = e.1 ∧ (∃ ce ∈ b.characters, ce.2 = e.2.character) ∧
      (keysA e.2.choices).Nodup ∧ ∀ ch ∈ e.2.choices, ch.2.target = ch.1) := by
  unfold Book.wfB at h
  simp only [Bool.and_eq_true, List.all_eq_true] at h
  obtain ⟨⟨⟨⟨h1, h2⟩, h3⟩, h4⟩, h5⟩ := h
  refine ⟨nodupKeysB_iff.mp h1, nodupKeysB_iff.mp h2, nodupB_iff.mp h3, ?_, ?_⟩
  · intro e he
    have hm := h4 e he
    rcases hh : b.heap[e.2]? with _ | c
    · rw [hh] at hm
      exact absurd hm (by simp)
    · rw [hh] at hm
      exact ⟨c, rfl, by simpa using hm⟩
  · intro e he
    have hm := h5 e he
    simp only [Bool.and_eq_true, decide_eq_true_eq, List.all_eq_true,
      List.any_eq_true] at hm
    obtain ⟨⟨⟨hp, hc⟩, hn⟩, ht⟩ := hm
    refine ⟨hp, ?_, nodupKeysB_iff.mp hn, fun ch hch => by simpa using ht ch hch⟩
    obtain ⟨ce, hce, heq⟩ := hc
    exact ⟨ce, hce, by simpa using heq⟩

/-! ## Claim theorems -/

/-- C5: adding a choice whose target already keys an existing choice of the
    page fails with the duplicate-target raise (the spec ConflictError), which
    happens before any state change, so the choices dict is unchanged; adding
    a choice with a fresh target appends exactly that one entry and leaves the
    mapping at every other target unchanged. -/
theorem C5_add_choice_conflict (p : Page) (target : PageId) (summary : String) :
    ((lookupA p.choices target).isSome = true →
      p.add_choice target summary = .error (.exception ("Target " ++ target.str
        ++ " already exists on page " ++ p.pagenum.str))) ∧
    (lookupA p.choices target = none →
      p.add_choice target summary =
        .ok { p with choices :=
          p.choices ++ [(target, { target := target, summary := summary })] } ∧
      lookupA (p.choices ++ [(target, { target := target, summary := summary })]) target =
        some { target := target, summary := summary } ∧
      ∀ t, t ≠ target →
        lookupA (p.choices ++ [(target, { target := target, summary := summary })]) t =
          lookupA p.choices t) := by
  constructor
  · intro h
    simp [Page.add_choice, Page.add_choice_obj, h]
  · intro h
    have hmem : target ∉ keysA p.choices := lookupA_eq_none_iff.mp h
    refine ⟨?_, ?_, ?_⟩
    · simp [Page.add_choice, Page.add_choice_obj, h, dinsert_of_not_mem _ hmem]
    · rw [← dinsert_of_not_mem _ hmem]
      exact lookupA_dinsert_self _ _ _
    · intro t ht
      rw [← dinsert_of_not_mem _ hmem]
      exact lookupA_dinsert_ne ht

/-- Witness for C5 at the scenario page: target 2 is taken, target 3 is fresh. -/
theorem C5_add_choice_conflict_witness :
    ((lookupA pageOneC.choices (.num 2)).isSome = true ∧
      pageOneC.add_choice (.num 2) "again" = .error (.exception ("Target "
        ++ (PageId.num 2).str ++ " already exists on page " ++ pageOneC.pagenum.str))) ∧
    (lookupA pageOneC.choices (.num 3) = none ∧
      pageOneC.add_choice (.num 3) "fresh" =
        .ok { pageOneC with choices := pageOneC.choices
          ++ [(.num 3, { target := .num 3, summary := "fresh" })] }) :=
  ⟨⟨by decide, (C5_add_choice_conflict pageOneC (.num 2) "again").1 (by decide)⟩,
   ⟨by decide, ((C5_add_choice_conflict pageOneC (.num 3) "fresh").2 (by decide)).1⟩⟩

/-- C9: `get_savedict` (the encoder) fails with the refusing-to-save raise
    (the spec InvariantError) whenever the book has no characters or no pages,
    and `save` then fails as well, producing no write: the file is opened only
    after the savedict has been built, and a `save` that does not return a
    write wrote nothing. -/
theorem C9_encode_empty_book (b : Book) (filename : Option String)
    (h : b.characters = [] ∨ b.pages = []) :
    b.get_savedict = .error (.exception (if b.characters.length = 0 then
      "Refusing to save game with no characters defined"
    else "Refusing to save game with no pages defined")) ∧
    ∀ w, b.save filename ≠ .ok w := by
  have hsd : b.get_savedict = .error (.exception (if b.characters.length = 0 then
      "Refusing to save game with no characters defined"
    else "Refusing to save game with no pages defined")) := by
    rcases h with h | h
    · simp [Book.get_savedict, h]
    · rcases hc : b.characters with _ | ⟨e, t⟩
      · simp [Book.get_savedict, hc]
      · simp [Book.get_savedict, h, hc]
  refine ⟨hsd, ?_⟩
  intro w hw
  unfold Book.save at hw
  rw [hsd] at hw
  by_cases hn : filename.isNone = true ∧ b.filename.isNone = true
  · rw [if_pos hn] at hw
    cases hw
  · rw [if_neg hn] at hw
    cases hw

/-- Witness for C9: a book with characters but no pages. -/
theorem C9_encode_empty_book_witness :
    (twoCharBook.characters = [] ∨ twoCharBook.pages = []) ∧
    twoCharBook.get_savedict = .error (.exception (if twoCharBook.characters.length = 0
      then "Refusing to save game with no characters defined"
      else "Refusing to save game with no pages defined")) ∧
    twoCharBook.save (some "out.yaml") ≠
      .ok ("out.yaml", { title := "T", characters := [], pages := [], intermediates := none }) :=
  ⟨Or.inr rfl, (C9_encode_empty_book twoCharBook (some "out.yaml") (Or.inr rfl)).1,
   (C9_encode_empty_book twoCharBook (some "out.yaml") (Or.inr rfl)).2 _⟩

/-- C2 counterexample: the raw Book mutation operations do not cross-check
    pages against intermediates.  Starting from a freshly constructed book,
    `add_character`, `add_intermediate 1`, `add_page 1` all succeed and leave
    page id 1 simultaneously a real page and an intermediate marker. -/
theorem C2_counterexample :
    (match (do
        let b ← (Book.new "T").add_character "Alice"
        let b := b.add_intermediate (.num 1)
        b.add_page (.num 1) 0 "Start" : Except Err Book) with
      | .ok b => (lookupA b.pages (.num 1)).isSome && decide (PageId.num 1 ∈ b.intermediates)
      | .error _ => false) = true := by decide

/-- The accepted `App.add_intermediate` inputs preserve the pages/intermediates
    disjointness: ids of real pages are refused. -/
theorem add_intermediate_step_disjoint (b : Book) (h : pagesInterDisjoint b) (k : PageId) :
    pagesInterDisjoint (App.add_intermediate_step b k) := by
  unfold App.add_intermediate_step
  by_cases h1 : (lookupA b.pages k).isSome = true
  · simpa [h1] using h
  · by_cases h2 : b.has_intermediate k = true
    · simpa [h1, h2] using h
    · simp only [h1, h2, Bool.false_eq_true, if_false]
      intro k2 hk2 hmem
      rcases mem_sinsert.mp hmem with hm | rfl
      · exact h k2 hk2 hm
      · exact h1 (lookupA_isSome_iff.mpr hk2)

/-- `App.page_switch` preserves the pages/intermediates disjointness: an
    intermediate id is refused, and pages are only created at fresh ids. -/
theorem page_switch_disjoint (b : Book) (h : pagesInterDisjoint b)
    (k : PageId) (cc : CharRef) (s : String) :
    pagesInterDisjoint (App.page_switch b k cc s) := by
  unfold App.page_switch
  by_cases h1 : b.has_intermediate k = true
  · simpa [h1] using h
  · by_cases h2 : (lookupA b.pages k).isSome = true
    · simpa [h1, h2] using h
    · by_cases h3 : s = ""
      · simpa [h1, h2, h3] using h
      · have hadd : b.add_page k cc s = .ok { b with pages := dinsert b.pages k (Page.new k cc s) } := by
          simp [Book.add_page, Book.add_page_obj, Page.new, h2]
        simp only [h1, h2, h3, Bool.false_eq_true, if_false, hadd]
        intro k2 hk2 hmem
        rcases mem_keysA_dinsert.mp hk2 with hm | rfl
        · exact h k2 hm hmem
        · exact absurd (by simpa [Book.has_intermediate] using hmem) h1

/-- A successful `Book.delete_page` preserves the disjointness (it only
    shrinks the pages dict). -/
theorem delete_page_disjoint (b : Book) (h : pagesInterDisjoint b) :
    ∀ k b2, b.delete_page k = .ok b2 → pagesInterDisjoint b2 := by
  intro k b2 hdel
  unfold Book.delete_page at hdel
  by_cases h1 : (lookupA b.pages k).isSome = true
  · rw [if_pos h1] at hdel
    cases hdel
    intro k2 hk2 hmem
    exact h k2 ((keysA_derase_sublist b.pages k).subset hk2) hmem
  · rw [if_neg h1] at hdel
    cases hdel

/-- `Book.delete_intermediate` preserves the disjointness (it only shrinks
    the intermediates dict). -/
theorem delete_intermediate_disjoint (b : Book) (h : pagesInterDisjoint b) (k : PageId) :
    pagesInterDisjoint (b.delete_intermediate k) := by
  unfold Book.delete_intermediate
  by_cases h1 : k ∈ b.intermediates
  · rw [if_pos h1]
    intro k2 hk2 hmem
    exact h k2 hk2 ((serase_sublist b.intermediates k).subset hmem)
  · rw [if_neg h1]
    exact h

/-- Every single App command preserves the pages/intermediates disjointness. -/
theorem applyOp_disjoint (b : Book) (h : pagesInterDisjoint b) (op : AppOp) :
    pagesInterDisjoint (App.applyOp b op) := by
  cases op with
  | addInter k => exact add_intermediate_step_disjoint b h k
  | pageSwitch k cc s => exact page_switch_disjoint b h k cc s
  | delPage cur k =>
    show pagesInterDisjoint (App.delete_page_step b cur k)
    unfold App.delete_page_step
    by_cases h1 : k = cur
    · simpa [h1] using h
    · rw [if_neg h1]
      rcases hdel : b.delete_page k with er | b2
      · exact h
      · exact delete_page_disjoint b h k b2 hdel
  | delInter k => exact delete_intermediate_disjoint b h k

/-- Every sequence of App commands preserves the disjointness. -/
theorem foldl_applyOp_disjoint (ops : List AppOp) :
    ∀ b : Book, pagesInterDisjoint b → pagesInterDisjoint (ops.foldl App.applyOp b) := by
  induction ops with
  | nil => exact fun b h => h
  | cons op ops ih =>
    intro b h
    rw [List.foldl_cons]
    exact ih _ (applyOp_disjoint b h op)

/-- C2 (amended): the pages/intermediates disjointness is maintained one level
    up, by the App command handlers: `App.add_intermediate` refuses ids of
    real pages, `App.page_switch` refuses to create a page at an intermediate
    id, and deletions only shrink the collections; consequently every sequence
    of App commands started from a disjoint book keeps pages and
    intermediates disjoint. -/
theorem C2_app_level_disjoint (b : Book) (h : pagesInterDisjoint b) :
    (∀ k, pagesInterDisjoint (App.add_intermediate_step b k)) ∧
    (∀ k cc s, pagesInterDisjoint (App.page_switch b k cc s)) ∧
    (∀ k b2, b.delete_page k = .ok b2 → pagesInterDisjoint b2) ∧
    (∀ k, pagesInterDisjoint (b.delete_intermediate k)) ∧
    (∀ ops : List AppOp, pagesInterDisjoint (ops.foldl App.applyOp b)) :=
  ⟨fun k => add_intermediate_step_disjoint b h k,
   fun k cc s => page_switch_disjoint b h k cc s,
   delete_page_disjoint b h,
   fun k => delete_intermediate_disjoint b h k,
   fun ops => foldl_applyOp_disjoint ops b h⟩

/-- Witness for the amended C2 at a disjoint book with a page and an
    intermediate, including a four-command App session. -/
theorem C2_app_level_disjoint_witness :
    pagesInterDisjoint mixBook ∧
    pagesInterDisjoint (App.add_intermediate_step mixBook (.num 7)) ∧
    pagesInterDisjoint (App.page_switch mixBook (.num 8) 0 "s") ∧
    pagesInterDisjoint ([AppOp.addInter (.num 7), AppOp.pageSwitch (.num 8) 0 "s",
      AppOp.delPage (.num 1) (.num 2), AppOp.delInter (.num 3)].foldl App.applyOp mixBook) :=
  ⟨by unfold pagesInterDisjoint; decide,
   (C2_app_level_disjoint mixBook (by unfold pagesInterDisjoint; decide)).1 (.num 7),
   (C2_app_level_disjoint mixBook (by unfold pagesInterDisjoint; decide)).2.1 (.num 8) 0 "s",
   (C2_app_level_disjoint mixBook (by unfold pagesInterDisjoint; decide)).2.2.2.2
     [AppOp.addInter (.num 7), AppOp.pageSwitch (.num 8) 0 "s",
      AppOp.delPage (.num 1) (.num 2), AppOp.delInter (.num 3)]⟩

/-- C6 counterexample: the claim requires every export request path to compare
    the output path with the book data file.  The `-d DOTFILE` command line
    path (`App.run`) performs no such comparison: exporting to the book data
    file itself goes straight through `export_dot` and writes the file once
    the overwrite prompt is confirmed. -/
theorem C6_counterexample :
    testBookC.filename = some "book.yaml" ∧
    (match App.run_dot_mode testBookC "book.yaml" true true with
      | .ok (.written f _) => decide (f = "book.yaml")
      | _ => false) = true := by
  exact ⟨rfl, by decide⟩

/-- C6 (amended): the interactive export path (`generate_graphviz`) does
    refuse: whenever the requested DOT filename (the default when the user
    input is empty) equals the book data filename, it aborts with the
    refusing-to-overwrite error and writes nothing. -/
theorem C6_generate_graphviz_guard (b : Book) (app_filename requested : String)
    (fe ok : Bool)
    (h : resolvedDotName app_filename requested = app_filename) :
    App.generate_graphviz_dot b app_filename requested fe ok = .ok .conflict := by
  simp [App.generate_graphviz_dot, h]

/-- Witness for the amended C6: requesting the data file itself, and a default
    filename that collides with the data file. -/
theorem C6_generate_graphviz_guard_witness :
    resolvedDotName "book.yaml" "book.yaml" = "book.yaml" ∧
    resolvedDotName "book.dot" "" = "book.dot" ∧
    App.generate_graphviz_dot testBookC "book.yaml" "book.yaml" false true = .ok .conflict ∧
    App.generate_graphviz_dot testBookC "book.dot" "" false true = .ok .conflict :=
  ⟨by decide, by decide,
   C6_generate_graphviz_guard testBookC "book.yaml" "book.yaml" false true (by decide),
   C6_generate_graphviz_guard testBookC "book.dot" "" false true (by decide)⟩

/-- C4: `rename_character` fails with the already-exists raise (the spec
    ConflictError) exactly when a distinct character object already holds the
    new name; the raise precedes every mutation, so on failure the character
    name and the characters dict are unchanged.  On success the dict is
    re-keyed (old key removed, shared object renamed in place, new key
    inserted): afterwards the character is reachable exactly under the new
    name, the old key is gone, and every other entry is unchanged. -/
theorem C4_rename_character (b : Book) (r : CharRef) (c : Character) (newname : String)
    (hwf : b.wfB = true) (hc : b.heap[r]? = some c)
    (hin : lookupA b.characters c.name = some r) :
    ((∃ r2, lookupA b.characters newname = some r2 ∧ r2 ≠ r) →
      b.rename_character r newname = .error (.exception ("Cannot rename character \""
        ++ c.name ++ "\" to \"" ++ newname
        ++ "\" because a character already exists with that name"))) ∧
    ((∀ r2, lookupA b.characters newname = some r2 → r2 = r) →
      b.rename_character r newname = .ok { b with
          heap := b.heap.set r { c with name := newname },
          characters := dinsert (derase b.characters c.name) newname r } ∧
      lookupA (dinsert (derase b.characters c.name) newname r) newname = some r ∧
      (∀ n, n ≠ newname → n ≠ c.name →
        lookupA (dinsert (derase b.characters c.name) newname r) n =
          lookupA b.characters n) ∧
      (c.name ≠ newname →
        lookupA (dinsert (derase b.characters c.name) newname r) c.name = none)) := by
  obtain ⟨hnd, -, -, hres, -⟩ := wfB_unpack hwf
  constructor
  · rintro ⟨r2, hl, hne⟩
    simp [Book.rename_character, Book.getChar, hc, hl, hne, Except.bind]
  · intro hnc
    have hnone : lookupA b.characters newname = none ∨
        lookupA b.characters newname = some r := by
      rcases hl : lookupA b.characters newname with _ | r2
      · exact Or.inl rfl
      · exact Or.inr (by rw [← hnc r2 hl])
    have hkey : lookupA (derase b.characters c.name) newname = none := by
      by_cases heq : newname = c.name
      · rw [heq]
        exact lookupA_derase_self hnd
      · rw [lookupA_derase_ne heq]
        rcases hnone with h0 | h0
        · exact h0
        · exfalso
          obtain ⟨cx, hcx, hcxn⟩ := hres _ (mem_of_lookupA_eq_some h0)
          rw [hc] at hcx
          cases hcx
          exact heq hcxn.symm
    have hlen : r < b.heap.length := by
      rcases List.getElem?_eq_some_iff.mp hc with ⟨hl, -⟩
      exact hl
    have hget : (b.heap.set r { c with name := newname })[r]? =
        some { c with name := newname } := List.getElem?_set_self hlen
    have hmain : b.rename_character r newname = .ok { b with
        heap := b.heap.set r { c with name := newname },
        characters := dinsert (derase b.characters c.name) newname r } := by
      rcases hnone with h0 | h0 <;>
        simp [Book.rename_character, Book.getChar, hc, h0, hin,
          Book.add_character_obj, hget, hkey, Except.bind]
    refine ⟨hmain, lookupA_dinsert_self _ _ _, ?_, ?_⟩
    · intro n h1 h2
      rw [lookupA_dinsert_ne h1, lookupA_derase_ne h2]
    · intro h1
      rw [lookupA_dinsert_ne h1]
      exact lookupA_derase_self hnd

/-- Witness for C4 on the two-character book: renaming Alice to Bob fails with
    the conflict raise; renaming Alice to Carol re-keys the dict. -/
theorem C4_rename_character_witness :
    (twoCharBook.wfB = true ∧ twoCharBook.heap[0]? = some aliceC ∧
      lookupA twoCharBook.characters aliceC.name = some 0) ∧
    twoCharBook.rename_character 0 "Bob" = .error (.exception ("Cannot rename character \""
      ++ aliceC.name ++ "\" to \"" ++ "Bob"
      ++ "\" because a character already exists with that name")) ∧
    twoCharBook.rename_character 0 "Carol" = .ok { twoCharBook with
      heap := twoCharBook.heap.set 0 { aliceC with name := "Carol" },
      characters := dinsert (derase twoCharBook.characters aliceC.name) "Carol" 0 } :=
  ⟨⟨by decide, by decide, by decide⟩,
   (C4_rename_character twoCharBook 0 aliceC "Bob" (by decide) (by decide) (by decide)).1
     ⟨1, by decide, by decide⟩,
   ((C4_rename_character twoCharBook 0 aliceC "Carol" (by decide) (by decide) (by decide)).2
     (fun r2 h => by
       rw [show lookupA twoCharBook.characters "Carol" = none from by decide] at h
       exact Option.noConfusion h)).1⟩

/-- C8: the node declaration of a visited page is the page label followed by a
    styling suffix that is a pure function of (ending, canonical, owning
    character colors); when ending is set the fixed closed styling is used and
    the character colors are irrelevant; and the Test/Alice scenario book
    exports exactly two node lines (page 1 in the character colors, page 2 in
    the closed styling) and one edge line from 1 to 2. -/
theorem C8_node_styling :
    (∀ (b : Book) (p : Page) (c : Character), b.heap[p.character]? = some c →
      b.visitedLabel p = .ok (nodeDecl p.pagenum p.summary p.ending p.canonical
        c.fontcolor c.fillcolor)) ∧
    (∀ (pagenum : PageId) (summary : String) (canonical : Bool) (f1 l1 f2 l2 : String),
      nodeDecl pagenum summary true canonical f1 l1 =
        nodeDecl pagenum summary true canonical f2 l2) ∧
    testBookC.exportDotLines "test.dot" = .ok
      ["digraph test \x7b\n", "\n", "\t// Pages\n",
       "\t1 [label=\"Page 1 - Start\" fontcolor=black fillcolor=white style=\"filled\"];\n",
       "\t2 [label=\"Page 2 - End\" fontcolor=white fillcolor=azure4 style=\"filled\"];\n",
       "\n", "\t// Choices\n",
       "\t1 -> 2;\n",
       "\n", "\x7d\n"] := by
  refine ⟨?_, ?_, by rfl⟩
  · intro b p c hcc
    cases hE : p.ending <;> cases hC : p.canonical <;>
      simp [Book.visitedLabel, Book.getChar, nodeDecl, hcc, hE, hC]
  · intro pagenum summary canonical f1 l1 f2 l2
    simp [nodeDecl]

/-- Witness for C8: the styling equation applied to page 1 of the scenario
    book and its character. -/
theorem C8_node_styling_witness :
    testBookC.heap[pageOneC.character]? = some aliceC ∧
    testBookC.visitedLabel pageOneC = .ok (nodeDecl pageOneC.pagenum pageOneC.summary
      pageOneC.ending pageOneC.canonical aliceC.fontcolor aliceC.fillcolor) :=
  ⟨by decide, C8_node_styling.1 testBookC pageOneC aliceC (by decide)⟩

/-! ## Fold lemmas for the export dicts -/

theorem foldl_flatMap {A B C : Type} (l : List A) (g : A → List B) (f : C → B → C)
    (init : C) :
    (l.flatMap g).foldl f init = l.foldl (fun acc a => (g a).foldl f acc) init := by
  induction l generalizing init with
  | nil => rfl
  | cons a l ih => simp [List.flatMap_cons, List.foldl_append, ih]

/-- Looking a key up after a fold of guarded dict assignments: the result is
    the value of the last element that passed the guard and wrote that key,
    and otherwise the lookup in the initial dict. -/
theorem lookupA_foldl_cond_dinsert {K V A : Type} [DecidableEq K]
    (f : A → K) (g : A → V) (p : A → Bool) (xs : List A) (acc : List (K × V)) (t : K) :
    lookupA (xs.foldl (fun d a => if p a = true then d else dinsert d (f a) (g a)) acc) t =
      match (xs.filter (fun a => !p a && decide (f a = t))).getLast? with
      | some a => some (g a)
      | none => lookupA acc t := by
  induction xs generalizing acc with
  | nil => simp
  | cons a xs ih =>
    rw [List.foldl_cons, ih]
    by_cases hp : p a = true
    · simp [hp]
    · have hp2 : p a = false := by
        cases hb : p a
        · rfl
        · exact absurd hb hp
      by_cases hf : f a = t
      · rw [List.filter_cons_of_pos (by simp [hp2, hf])]
        rw [List.getLast?_cons]
        rcases hl : (xs.filter (fun a => !p a && decide (f a = t))).getLast? with _ | a2
        · simp only [hl, Option.getD_none]
          rw [if_neg hp, ← hf]
          exact lookupA_dinsert_self acc (f a) (g a)
        · simp only [hl, Option.getD_some]
      · rw [List.filter_cons_of_neg (by simp [hf])]
        simp [hp2, lookupA_dinsert_ne (fun hc : t = f a => hf hc.symm)]

/-- A fold of guarded dict assignments preserves key uniqueness. -/
theorem nodup_keysA_foldl_cond_dinsert {K V A : Type} [DecidableEq K]
    (f : A → K) (g : A → V) (p : A → Bool) (xs : List A) (acc : List (K × V))
    (hacc : (keysA acc).Nodup) :
    (keysA (xs.foldl (fun d a => if p a = true then d else dinsert d (f a) (g a)) acc)).Nodup := by
  induction xs generalizing acc with
  | nil => exact hacc
  | cons a xs ih =>
    rw [List.foldl_cons]
    by_cases hp : p a = true
    · rw [if_pos hp]
      exact ih acc hacc
    · rw [if_neg hp]
      exact ih _ (nodup_keysA_dinsert hacc)

/-- In a dict with unique keys, the last (and only) entry carrying a key is
    its lookup. -/
theorem filter_fst_getLast_of_nodup {K V : Type} [DecidableEq K]
    {l : List (K × V)} (h : (keysA l).Nodup) (t : K) :
    (l.filter (fun e => decide (e.1 = t))).getLast? = (lookupA l t).map (fun v => (t, v)) := by
  induction l with
  | nil => rfl
  | cons e l ih =>
    obtain ⟨k1, v1⟩ := e
    rw [keysA_cons, List.nodup_cons] at h
    by_cases hk : k1 = t
    · subst hk
      rw [List.filter_cons_of_pos (by simp)]
      have hrest : l.filter (fun e => decide (e.1 = k1)) = [] := by
        rw [List.filter_eq_nil_iff]
        intro e he
        simp only [decide_eq_true_eq]
        intro hc
        exact h.1 (hc ▸ List.mem_map.mpr ⟨e, he, rfl⟩)
      simp [hrest, lookupA]
    · rw [List.filter_cons_of_neg (by simp [hk])]
      rw [ih h.2]
      rw [show lookupA ((k1, v1) :: l) t = lookupA l t from by
        simp only [lookupA]
        rw [if_neg (fun hc : t = k1 => hk hc.symm)]]

/-- Lookup after a fold of unguarded dict assignments of key/value pairs. -/
theorem lookupA_foldl_dinsert_pairs {K V W : Type} [DecidableEq K] (g : V → W)
    (xs : List (K × V)) (acc : List (K × W)) (t : K) :
    lookupA (xs.foldl (fun d e => dinsert d e.1 (g e.2)) acc) t =
      match (xs.filter (fun e => decide (e.1 = t))).getLast? with
      | some e => some (g e.2)
      | none => lookupA acc t := by
  induction xs generalizing acc with
  | nil => simp
  | cons e xs ih =>
    rw [List.foldl_cons, ih]
    by_cases hf : e.1 = t
    · rw [List.filter_cons_of_pos (by simp [hf])]
      rw [List.getLast?_cons]
      rcases hl : (xs.filter (fun e => decide (e.1 = t))).getLast? with _ | e2
      · simp only [hl, Option.getD_none]
        rw [← hf]
        exact lookupA_dinsert_self acc e.1 (g e.2)
      · simp only [hl, Option.getD_some]
    · rw [List.filter_cons_of_neg (by simp [hf])]
      simp [lookupA_dinsert_ne (fun hc : t = e.1 => hf hc.symm)]

theorem nodup_keysA_foldl_dinsert_pairs {K V W : Type} [DecidableEq K] (g : V → W)
    (xs : List (K × V)) (acc : List (K × W)) (hacc : (keysA acc).Nodup) :
    (keysA (xs.foldl (fun d e => dinsert d e.1 (g e.2)) acc)).Nodup := by
  induction xs generalizing acc with
  | nil => exact hacc
  | cons e xs ih =>
    rw [List.foldl_cons]
    exact ih _ (nodup_keysA_dinsert hacc)

/-- The `unknown_pages` dict as a single fold over all choices in
    page-then-choice sorted order. -/
theorem unknownPages_eq_flat (b : Book) :
    b.unknownPages = b.allChoicesSorted.foldl
      (fun up c => if (lookupA b.pages c.target).isSome = true then up
        else dinsert up c.target (unvisitedText c.target c.summary)) [] := by
  unfold Book.unknownPages Book.allChoicesSorted
  exact (foldl_flatMap _ _ _ _).symm

/-- Lookup in an intermediate state of the visited-pages fold of `allPages`:
    pages whose page number is not `t` do not affect key `t`. -/
theorem visited_fold_lookup {b : Book} {t : PageId} (ps : List Page)
    (acc ap : List (PageId × String))
    (hfold : List.foldlM (fun ap p => do
        let l ← b.visitedLabel p
        pure (dinsert ap p.pagenum l)) acc ps = .ok ap)
    (hne : ∀ p ∈ ps, p.pagenum ≠ t) :
    lookupA ap t = lookupA acc t := by
  induction ps generalizing acc with
  | nil =>
    cases hfold
    rfl
  | cons p ps ih =>
    rw [List.foldlM_cons] at hfold
    rcases hv : b.visitedLabel p with e | l
    · rw [hv] at hfold
      simp at hfold
    · rw [hv] at hfold
      simp only [ok_bind, pure_eq_ok] at hfold
      rw [ih _ hfold (fun q hq => hne q (List.mem_cons_of_mem _ hq))]
      exact lookupA_dinsert_ne (hne p (List.mem_cons_self _ _)).symm

theorem visited_fold_nodup {b : Book} (ps : List Page)
    (acc ap : List (PageId × String))
    (hfold : List.foldlM (fun ap p => do
        let l ← b.visitedLabel p
        pure (dinsert ap p.pagenum l)) acc ps = .ok ap)
    (hacc : (keysA acc).Nodup) : (keysA ap).Nodup := by
  induction ps generalizing acc with
  | nil =>
    cases hfold
    exact hacc
  | cons p ps ih =>
    rw [List.foldlM_cons] at hfold
    rcases hv : b.visitedLabel p with e | l
    · rw [hv] at hfold
      simp at hfold
    · rw [hv] at hfold
      simp only [ok_bind, pure_eq_ok] at hfold
      exact ih _ hfold (nodup_keysA_dinsert hacc)

/-- C7: a choice target that is not a real page gets exactly one unvisited
    node: the `unknown_pages` entry for it carries the text of the last choice
    targeting it in page-then-choice sorted iteration order (last write wins),
    the `all_pages` entry wraps that text in italic markup, the `all_pages`
    keys are unique (one node declaration per key), and the key is present
    exactly when some choice targets it. -/
theorem C7_unvisited_last_write (b : Book) (t : PageId)
    (hwf : b.wfB = true) (ht : lookupA b.pages t = none) :
    lookupA b.unknownPages t = b.lastLabelFor t ∧
    ∀ ap, b.allPages = .ok ap →
      lookupA ap t = (b.lastLabelFor t).map (fun s => "label=<<i>" ++ s ++ "</i>>") ∧
      (keysA ap).Nodup ∧
      (t ∈ keysA ap ↔ (b.lastLabelFor t).isSome = true) := by
  obtain ⟨-, hndp, -, -, hpages⟩ := wfB_unpack hwf
  have hfc : b.allChoicesSorted.filter (fun c =>
      !(lookupA b.pages c.target).isSome && decide (c.target = t)) =
      b.allChoicesSorted.filter (fun c => decide (c.target = t)) := by
    refine List.filter_congr ?_
    intro c hc
    by_cases hct : c.target = t
    · simp [hct, ht]
    · simp [hct]
  have hpart1 : lookupA b.unknownPages t = b.lastLabelFor t := by
    rw [unknownPages_eq_flat]
    refine Eq.trans (lookupA_foldl_cond_dinsert Choice.target
      (fun c => unvisitedText c.target c.summary)
      (fun c => (lookupA b.pages c.target).isSome) b.allChoicesSorted [] t) ?_
    rw [hfc]
    unfold Book.lastLabelFor
    rcases hl : (b.allChoicesSorted.filter (fun c => decide (c.target = t))).getLast?
      with _ | c
    · rw [hl]
      simp [lookupA]
    · have hmem : c ∈ b.allChoicesSorted.filter (fun c => decide (c.target = t)) := by
        obtain ⟨ys, hys⟩ := List.getLast?_eq_some_iff.mp hl
        rw [hys]
        simp
      have hct : c.target = t := by simpa using (List.mem_filter.mp hmem).2
      rw [hl]
      simp [hct]
  refine ⟨hpart1, ?_⟩
  intro ap hap
  unfold Book.allPages at hap
  rcases hv : List.foldlM (fun ap p => do
      let l ← b.visitedLabel p
      pure (dinsert ap p.pagenum l)) ([] : List (PageId × String)) b.pages_sorted
    with e | visited
  · rw [hv] at hap
    simp at hap
  · rw [hv] at hap
    simp only [ok_bind, pure_eq_ok] at hap
    cases hap
    have hne : ∀ p ∈ b.pages_sorted, p.pagenum ≠ t := by
      intro p hp
      obtain ⟨e, he, hpe⟩ := List.mem_map.mp ((mem_pages_sorted hndp).mp hp)
      intro hcon
      refine lookupA_eq_none_iff.mp ht ?_
      have h2 : t = e.1 := by
        rw [← hcon, ← hpe]
        exact (hpages e he).1
      rw [h2]
      exact List.mem_map.mpr ⟨e, he, rfl⟩
    have hvl : lookupA visited t = lookupA ([] : List (PageId × String)) t :=
      visited_fold_lookup _ _ _ hv hne
    have hvn : (keysA visited).Nodup := visited_fold_nodup _ _ _ hv (by simp [keysA])
    have hun : (keysA b.unknownPages).Nodup := by
      rw [unknownPages_eq_flat]
      exact nodup_keysA_foldl_cond_dinsert _ _ _ _ _ (by simp [keysA])
    have h2 := lookupA_foldl_dinsert_pairs
      (fun s : String => "label=<<i>" ++ s ++ "</i>>") b.unknownPages visited t
    rw [filter_fst_getLast_of_nodup hun t, hpart1] at h2
    have hlook : lookupA (b.unknownPages.foldl
        (fun ap e => dinsert ap e.1 ("label=<<i>" ++ e.2 ++ "</i>>")) visited) t =
        (b.lastLabelFor t).map (fun s => "label=<<i>" ++ s ++ "</i>>") := by
      refine Eq.trans h2 ?_
      rcases hll : b.lastLabelFor t with _ | s
      · simp only [hll, Option.map_none']
        simpa [lookupA] using hvl
      · simp [hll]
    refine ⟨hlook, nodup_keysA_foldl_dinsert_pairs
      (fun s : String => "label=<<i>" ++ s ++ "</i>>") b.unknownPages visited hvn, ?_⟩
    rw [← lookupA_isSome_iff, hlook]
    rcases b.lastLabelFor t with _ | s <;> simp

/-- Witness for C7 on a book where pages 1 and 2 both link to the missing
    page 9: the label text comes from the later choice. -/
theorem C7_unvisited_last_write_witness :
    lastWinsBook.wfB = true ∧
    lookupA lastWinsBook.pages (.num 9) = none ∧
    lookupA lastWinsBook.unknownPages (.num 9) = lastWinsBook.lastLabelFor (.num 9) ∧
    lastWinsBook.lastLabelFor (.num 9) = some "(Page 9 - second)" :=
  ⟨by decide, by decide,
   (C7_unvisited_last_write lastWinsBook (.num 9) (by decide) (by decide)).1,
   by decide⟩

/-- C3: a well-formed book satisfies the claim invariant (every page's
    character is a value of the characters dict), and every successful
    `add_page` / `add_page_obj` (with a character of the book),
    `add_character`, `rename_character` (on a character of the book) and
    `delete_character` preserves it.  Failed calls raise before mutating, so
    they trivially leave the invariant intact. -/
theorem C3_character_reference_invariant (b : Book) (hwf : b.wfB = true) :
    charRefInv b ∧
    (∀ pagenum cid s b2, (∃ ce ∈ b.characters, ce.2 = cid) →
      b.add_page pagenum cid s = .ok b2 → charRefInv b2) ∧
    (∀ p b2, (∃ ce ∈ b.characters, ce.2 = p.character) →
      b.add_page_obj p = .ok b2 → charRefInv b2) ∧
    (∀ name b2, b.add_character name = .ok b2 → charRefInv b2) ∧
    (∀ r newname b2,
      (∃ c, b.heap[r]? = some c ∧ lookupA b.characters c.name = some r) →
      b.rename_character r newname = .ok b2 → charRefInv b2) ∧
    (∀ name b2, b.delete_character name = .ok b2 → charRefInv b2) := by
  obtain ⟨hndc, hndp, -, hres, hpages⟩ := wfB_unpack hwf
  have hinv : charRefInv b := fun e he => (hpages e he).2.1
  have hapo : ∀ p b2, (∃ ce ∈ b.characters, ce.2 = p.character) →
      b.add_page_obj p = .ok b2 → charRefInv b2 := by
    intro p b2 hin hok
    unfold Book.add_page_obj at hok
    by_cases hl : (lookupA b.pages p.pagenum).isSome = true
    · rw [if_pos hl] at hok
      cases hok
    · rw [if_neg hl] at hok
      cases hok
      intro e he
      rcases mem_dinsert he with h1 | h1
      · exact hinv e h1
      · subst h1
        exact hin
  refine ⟨hinv, fun pagenum cid s b2 hin hok => hapo _ b2 hin hok, hapo, ?_, ?_, ?_⟩
  · intro name b2 hok
    have hg : ({ b with heap := b.heap ++ [Character.new name] } : Book).getChar
        b.heap.length = .ok (Character.new name) := by
      simp [Book.getChar, List.getElem?_concat_length]
    unfold Book.add_character Book.add_character_new Book.add_character_obj at hok
    rw [hg] at hok
    simp only [ok_bind] at hok
    by_cases hl : (lookupA b.characters (Character.new name).name).isSome = true
    · rw [if_pos hl] at hok
      cases hok
    · rw [if_neg hl] at hok
      cases hok
      intro e he
      obtain ⟨ce, hce, hcee⟩ := hinv e he
      refine ⟨ce, mem_dinsert_of_ne hce ?_, hcee⟩
      intro hc
      exact hl (lookupA_isSome_iff.mpr (hc ▸ List.mem_map.mpr ⟨ce, hce, rfl⟩))
  · intro r newname b2 hrin hok
    obtain ⟨c, hc, hcn⟩ := hrin
    have hnc : ∀ r2, lookupA b.characters newname = some r2 → r2 = r := by
      intro r2 hl2
      by_contra hne
      rw [(C4_rename_character b r c newname hwf hc hcn).1 ⟨r2, hl2, hne⟩] at hok
      cases hok
    have hmain := ((C4_rename_character b r c newname hwf hc hcn).2 hnc).1
    rw [hmain] at hok
    cases hok
    intro e he
    obtain ⟨ce, hce, hcee⟩ := hinv e he
    by_cases hrr : ce.2 = r
    · refine ⟨(newname, r), mem_of_lookupA_eq_some (lookupA_dinsert_self _ _ _), ?_⟩
      rw [← hcee, ← hrr]
    · have h1 : ce.1 ≠ c.name := by
        intro hc1
        have hl1 := lookupA_eq_some_of_mem hndc (show (ce.1, ce.2) ∈ b.characters from hce)
        rw [hc1, hcn] at hl1
        exact hrr (Option.some.inj hl1).symm
      have h2 : ce.1 ≠ newname := by
        intro hc2
        have hl2 := lookupA_eq_some_of_mem hndc (show (ce.1, ce.2) ∈ b.characters from hce)
        rw [hc2] at hl2
        exact hrr (hnc ce.2 hl2)
      exact ⟨ce, mem_dinsert_of_ne (mem_derase_of_ne hce h1) h2, hcee⟩
  · intro name b2 hok
    unfold Book.delete_character at hok
    by_cases h1 : (lookupA b.characters name).isNone = true
    · rw [if_pos h1] at hok
      cases hok
    · rw [if_neg h1] at hok
      rcases hf : b.pages_sorted.find? (fun p =>
          (b.heap[p.character]?).map Character.name = some name) with _ | pg
      · rw [hf] at hok
        cases hok
        intro e he
        obtain ⟨ce, hce, hcee⟩ := hinv e he
        refine ⟨ce, mem_derase_of_ne hce ?_, hcee⟩
        intro hc1
        have hmem2 : e.2 ∈ b.pages_sorted :=
          (mem_pages_sorted hndp).mpr (List.mem_map.mpr ⟨e, he, rfl⟩)
        have hresolve : (b.heap[e.2.character]?).map Character.name = some name := by
          obtain ⟨cx, hcx, hcxn⟩ := hres ce hce
          rw [← hcee, hcx]
          simp [hcxn, hc1]
        have := List.find?_eq_none.mp hf e.2 hmem2
        simp [hresolve] at this
      · rw [hf] at hok
        cases hok

/-- Witness for C3: adding page 3 to the scenario book with its character
    keeps every page's character a value of the characters dict. -/
theorem C3_character_reference_invariant_witness :
    testBookC.wfB = true ∧
    (∃ ce ∈ testBookC.characters, ce.2 = 0) ∧
    charRefInv { testBookC with
      pages := testBookC.pages ++ [(.num 3, Page.new (.num 3) 0 "x")] } :=
  ⟨by decide, by decide,
   (C3_character_reference_invariant testBookC (by decide)).2.1 (.num 3) 0 "x"
     { testBookC with pages := testBookC.pages ++ [(.num 3, Page.new (.num 3) 0 "x")] }
     (by decide) (by rfl)⟩

/-! ## Missing-page report lemmas -/

theorem mem_intRange1 {m x : Int} : x ∈ intRange1 m ↔ 1 ≤ x ∧ x ≤ m := by
  unfold intRange1
  simp only [List.mem_map, List.mem_range]
  constructor
  · rintro ⟨i, hi, rfl⟩
    omega
  · rintro ⟨h1, h2⟩
    exact ⟨(x - 1).toNat, by omega, by omega⟩

theorem length_intRange1 (m : Int) : (intRange1 m).length = m.toNat := by
  simp [intRange1]

theorem intRange1_split {p M : Int} (h0 : 0 ≤ p) (h1 : p ≤ M) :
    intRange1 M = intRange1 p ++ (intRange1 (M - p)).map (· + p) := by
  unfold intRange1
  have hM : M.toNat = p.toNat + (M - p).toNat := by omega
  rw [hM, List.range_add, List.map_append, List.map_map, List.map_map]
  congr 1
  refine List.map_congr_left ?_
  intro i hi
  simp only [Function.comp_apply]
  omega

theorem intRange1_concat {p : Int} (h1 : 1 ≤ p) :
    intRange1 p = intRange1 (p - 1) ++ [p] := by
  rw [intRange1_split (p := p - 1) (M := p) (by omega) (by omega)]
  congr 1
  have h2 : p - (p - 1) = 1 := by omega
  rw [h2]
  rw [show intRange1 1 = [1] from by decide, List.map_singleton]
  congr 1
  omega

/-- One `del total_pages[page - 1]` step on the partially-thinned range. -/
theorem pydel_filter_step {M p : Int} {S : List Int} (hp1 : 1 ≤ p) (hpM : p ≤ M)
    (hS : ∀ q ∈ S, p < q) :
    pyDelIdx ((intRange1 M).filter (fun x => decide (x ∉ S))) (p - 1) =
      .ok ((intRange1 M).filter (fun x => decide (x ∉ p :: S))) := by
  have hfirst : (intRange1 p).filter (fun x => decide (x ∉ S)) = intRange1 p :=
    List.filter_eq_self.mpr (fun a ha => by
      have h2 := (mem_intRange1.mp ha).2
      simp only [decide_eq_true_eq]
      intro hmem
      exact absurd (hS a hmem) (by omega))
  have hfirst2 : (intRange1 p).filter (fun x => decide (x ∉ p :: S)) = intRange1 (p - 1) := by
    rw [intRange1_concat hp1, List.filter_append]
    have e1 : (intRange1 (p - 1)).filter (fun x => decide (x ∉ p :: S)) = intRange1 (p - 1) :=
      List.filter_eq_self.mpr (fun a ha => by
        have h2 := (mem_intRange1.mp ha).2
        simp only [decide_eq_true_eq, List.mem_cons, not_or]
        exact ⟨by omega, fun hmem => absurd (hS a hmem) (by omega)⟩)
    have e2 : ([p] : List Int).filter (fun x => decide (x ∉ p :: S)) = [] := by simp
    rw [e1, e2, List.append_nil]
  have hsecond : ∀ x ∈ (intRange1 (M - p)).map (· + p),
      (decide (x ∉ p :: S)) = (decide (x ∉ S)) := by
    intro x hx
    obtain ⟨y, hy, rfl⟩ := List.mem_map.mp hx
    have h2 := (mem_intRange1.mp hy).1
    simp only [List.mem_cons, not_or, decide_eq_decide]
    constructor
    · exact And.right
    · exact fun h => ⟨by omega, h⟩
  rw [intRange1_split (p := p) (M := M) (by omega) hpM, List.filter_append, hfirst]
  unfold pyDelIdx
  rw [if_pos (by omega : (0 : Int) ≤ p - 1)]
  rw [if_pos (show (p - 1).toNat <
      (intRange1 p ++ ((intRange1 (M - p)).map (· + p)).filter
        (fun x => decide (x ∉ S))).length from by
    rw [List.length_append, length_intRange1]
    omega)]
  rw [List.eraseIdx_append_of_lt_length (by rw [length_intRange1]; omega)]
  rw [List.filter_append, hfirst2, List.filter_congr hsecond]
  rw [intRange1_concat hp1,
    List.eraseIdx_append_of_length_le (by simp [length_intRange1]) _]
  simp [length_intRange1]

/-- The whole deletion loop, for a strictly decreasing list of pages. -/
theorem missing_loop {M : Int} (ds : List Int) (S : List Int)
    (hpair : ds.Pairwise (fun a b => b < a))
    (hmem : ∀ d ∈ ds, 1 ≤ d ∧ d ≤ M)
    (hgt : ∀ d ∈ ds, ∀ q ∈ S, d < q) :
    ds.foldlM (fun l p => pyDelIdx l (p - 1))
      ((intRange1 M).filter (fun x => decide (x ∉ S))) =
      .ok ((intRange1 M).filter (fun x => decide (x ∉ ds ++ S))) := by
  induction ds generalizing S with
  | nil => simp
  | cons d ds ih =>
    obtain ⟨hd1, hdM⟩ := hmem d (List.mem_cons_self _ _)
    rw [List.foldlM_cons,
      pydel_filter_step hd1 hdM (hgt d (List.mem_cons_self _ _))]
    simp only [ok_bind]
    rw [ih (d :: S) (List.pairwise_cons.mp hpair).2
      (fun e he => hmem e (List.mem_cons_of_mem _ he))
      (fun e he q hq => by
        rcases List.mem_cons.mp hq with rfl | hq2
        · exact (List.pairwise_cons.mp hpair).1 e he
        · exact hgt e (List.mem_cons_of_mem _ he) q hq2)]
    congr 1
    refine List.filter_congr ?_
    intro y hy
    simp only [decide_eq_decide, List.mem_append, List.mem_cons]
    constructor
    · intro h hc
      exact h (by tauto)
    · intro h hc
      exact h (by tauto)

theorem sorted_le_getLastOpt {l : List Int} (hs : l.Sorted (fun a b => a ≤ b)) {M : Int}
    (hM : l.getLast? = some M) : ∀ x ∈ l, x ≤ M := by
  obtain ⟨ys, rfl⟩ := List.getLast?_eq_some_iff.mp hM
  intro x hx
  rcases List.mem_append.mp hx with h | h
  · exact (List.pairwise_append.mp hs).2.2 x h M (by simp)
  · simp only [List.mem_singleton] at h
    exact le_of_eq h

theorem foldl_max_spec (xs : List Int) (x : Int) :
    (xs.foldl max x = x ∨ xs.foldl max x ∈ xs) ∧ x ≤ xs.foldl max x ∧
      ∀ y ∈ xs, y ≤ xs.foldl max x := by
  induction xs generalizing x with
  | nil => simp
  | cons a xs ih =>
    obtain ⟨hmem, hle, hall⟩ := ih (max x a)
    rw [List.foldl_cons]
    refine ⟨?_, le_trans (le_max_left x a) hle, ?_⟩
    · rcases hmem with h | h
      · rcases max_choice x a with h2 | h2
        · exact Or.inl (h.trans h2)
        · refine Or.inr ?_
          rw [h.trans h2]
          exact List.mem_cons_self a xs
      · exact Or.inr (List.mem_cons_of_mem _ h)
    · intro y hy
      rcases List.mem_cons.mp hy with rfl | hy2
      · exact le_trans (le_max_right x y) hle
      · exact hall y hy2

/-- C10 counterexample: the claim quantifies over every Book, but with real
    pages 0 and 2 the deletion loop of `list_pages` deletes by the negative
    index -1 (wrapping to the end of the list), so the computed report is
    empty although the gap set of the claim is [1]. -/
theorem C10_counterexample :
    App.missing_pages zeroBook = .ok [] ∧ claimGaps zeroBook = [1] ∧
      ([] : List Int) ≠ [1] :=
  ⟨by rfl, by rfl, by decide⟩

/-- C10 (amended): for every book that has at least one integer page id and
    all of whose integer ids (real or intermediate) are at least 1, the
    missing-page report equals the ascending list of integers between 1 and
    the maximum used integer id that are neither real page ids nor
    intermediate ids; label ids are excluded throughout. -/
theorem C10_missing_page_report (b : Book)
    (hpos : ∀ n ∈ b.intIds, 1 ≤ n) (hne : b.intIds ≠ []) :
    App.missing_pages b = .ok (claimGaps b) := by
  simp only [App.missing_pages]
  have hids : b.intIds = (keysA b.pages ++ b.intermediates).filterMap PageId.toInt? := rfl
  set raw := (keysA b.pages ++ b.intermediates).filterMap PageId.toInt? with hraw
  set pagesI := raw.dedup.insertionSort (fun a b => a ≤ b) with hpI
  have hperm : pagesI.Perm raw.dedup := List.perm_insertionSort _ _
  have hmemI : ∀ x, x ∈ pagesI ↔ x ∈ raw := fun x => by
    rw [hperm.mem_iff, List.mem_dedup]
  have hsorted : pagesI.Sorted (fun a b => a ≤ b) := List.sorted_insertionSort _ _
  have hnodup : pagesI.Nodup := hperm.nodup_iff.mpr (List.nodup_dedup raw)
  have hnonempty : pagesI ≠ [] := by
    intro h
    rcases hraw0 : raw with _ | ⟨x, xs⟩
    · exact hne (hids.trans hraw0)
    · have hx : x ∈ pagesI := (hmemI x).mpr (by simp [hraw0])
      rw [h] at hx
      simp at hx
  obtain ⟨M, hM⟩ : ∃ M, pagesI.getLast? = some M :=
    ⟨_, List.getLast?_eq_getLast _ hnonempty⟩
  simp only [hM]
  have hMmem : M ∈ pagesI := by
    obtain ⟨ys, hys⟩ := List.getLast?_eq_some_iff.mp hM
    rw [hys]
    simp
  have hle : ∀ x ∈ pagesI, x ≤ M := sorted_le_getLastOpt hsorted hM
  have hbound : ∀ d ∈ pagesI, 1 ≤ d ∧ d ≤ M := fun d hd =>
    ⟨hpos d (hids ▸ (hmemI d).mp hd), hle d hd⟩
  have hloop := missing_loop (M := M) pagesI.reverse []
    (by
      rw [List.pairwise_reverse]
      exact hsorted.lt_of_le hnodup)
    (fun d hd => hbound d (List.mem_reverse.mp hd))
    (fun d _ q hq => absurd hq (List.not_mem_nil q))
  rw [show (intRange1 M).filter (fun x => decide (x ∉ ([] : List Int))) = intRange1 M
    from List.filter_eq_self.mpr (by simp)] at hloop
  rw [hloop]
  congr 1
  unfold claimGaps
  rcases hid : b.intIds with _ | ⟨x, xs⟩
  · exact absurd hid hne
  · simp only [hid]
    have hmax := foldl_max_spec xs x
    have hfoldmem : xs.foldl max x ∈ b.intIds := by
      rw [hid]
      rcases hmax.1 with h | h
      · rw [h]
        exact List.mem_cons_self _ _
      · exact List.mem_cons_of_mem _ h
    have hfoldge : ∀ y ∈ b.intIds, y ≤ xs.foldl max x := by
      intro y hy
      rw [hid] at hy
      rcases List.mem_cons.mp hy with rfl | hy2
      · exact hmax.2.1
      · exact hmax.2.2 y hy2
    have hMfold : xs.foldl max x = M :=
      le_antisymm (hle _ ((hmemI _).mpr (hids ▸ hfoldmem)))
        (hfoldge M (hids ▸ (hmemI M).mp hMmem))
    rw [hMfold]
    refine List.filter_congr ?_
    intro y hy
    simp only [decide_eq_decide, List.append_nil, List.mem_reverse]
    rw [hmemI y, ← hids, hid]

/-- Witness for the amended C10: real pages 1, 2 and 5 with intermediate 4
    give the report [3]. -/
theorem C10_missing_page_report_witness :
    (∀ n ∈ gapBook.intIds, 1 ≤ n) ∧ gapBook.intIds ≠ [] ∧
    App.missing_pages gapBook = .ok (claimGaps gapBook) ∧
    claimGaps gapBook = [3] :=
  ⟨by decide, by decide,
   C10_missing_page_report gapBook (by decide) (by decide), by rfl⟩

/-! ## Codec lemmas (claim C1) -/

theorem character_roundtrip_dict (c : Character) : Character.from_dict c.to_dict = c := rfl

theorem choice_roundtrip_dict (c : Choice) : Choice.from_dict c.to_dict = c := rfl

theorem keysA_map_pair {K V W : Type} (l : List (K × V)) (g : K × V → W) :
    keysA (l.map (fun e => (e.1, g e))) = keysA l := by
  simp [keysA, List.map_map]

/-- A fold of dict assignments whose keys are fresh and mutually distinct
    appends the corresponding entries. -/
theorem foldl_dinsert_fresh {K V W : Type} [DecidableEq K]
    (f : K × V → K) (g : K × V → W) (l : List (K × V)) (acc : List (K × W))
    (hkey : ∀ e ∈ l, f e = e.1)
    (hnd : (keysA acc ++ keysA l).Nodup) :
    l.foldl (fun d e => dinsert d (f e) (g e)) acc = acc ++ l.map (fun e => (e.1, g e)) := by
  induction l generalizing acc with
  | nil => simp
  | cons e l ih =>
    rw [keysA_cons] at hnd
    have hfresh : e.1 ∉ keysA acc := fun hc =>
      (List.nodup_append.mp hnd).2.2 hc (List.mem_cons_self _ _)
    rw [List.foldl_cons, hkey e (List.mem_cons_self _ _),
      dinsert_of_not_mem (g e) hfresh,
      ih (acc ++ [(e.1, g e)]) (fun x hx => hkey x (List.mem_cons_of_mem _ hx)) (by
        have h2 : keysA (acc ++ [(e.1, g e)]) ++ keysA l = keysA acc ++ e.1 :: keysA l := by
          simp [keysA]
        rw [h2]
        exact hnd)]
    simp

/-- `Page.to_dict` on a page whose character resolves and whose choices dict
    is keyed by the choice targets. -/
theorem Page.to_dict_eq (b : Book) (p : Page)
    (hc : (b.heap[p.character]?).isSome = true)
    (hk : ∀ ch ∈ p.choices, ch.2.target = ch.1)
    (hnd : (keysA p.choices).Nodup) :
    p.to_dict b.heap = .ok (pageDictOf b p) := by
  unfold Page.to_dict pageDictOf
  rcases hh : b.heap[p.character]? with _ | c
  · rw [hh] at hc
    simp at hc
  · simp only [ok_bind]
    have hres : b.resolveChar p.character = c := by
      simp [Book.resolveChar, hh]
    rw [foldl_dinsert_fresh (fun ch => ch.2.target) (fun ch => ch.2.to_dict)
      p.choices [] hk (by simpa [keysA] using hnd)]
    simp [hres]

theorem encode_chars_fold (b : Book) (l : List (String × CharRef))
    (acc : List (String × CharDict))
    (hres : ∀ e ∈ l, (b.heap[e.2]?).isSome = true ∧ (b.resolveChar e.2).name = e.1)
    (hnd : (keysA acc ++ keysA l).Nodup) :
    l.foldlM (fun d e => do
      let c ← b.getChar e.2
      Except.ok (dinsert d c.name c.to_dict)) acc =
      .ok (acc ++ l.map (fun e => (e.1, (b.resolveChar e.2).to_dict))) := by
  induction l generalizing acc with
  | nil => simp
  | cons e l ih =>
    obtain ⟨hs, hn⟩ := hres e (List.mem_cons_self _ _)
    rcases hh : b.heap[e.2]? with _ | c
    · rw [hh] at hs
      simp at hs
    · have hrc : b.resolveChar e.2 = c := by simp [Book.resolveChar, hh]
      have hcn : c.name = e.1 := by
        rw [← hrc]
        exact hn
      have hg : b.getChar e.2 = .ok c := by simp [Book.getChar, hh]
      rw [keysA_cons] at hnd
      have hfresh : c.name ∉ keysA acc := by
        rw [hcn]
        exact fun hc => (List.nodup_append.mp hnd).2.2 hc (List.mem_cons_self _ _)
      rw [List.foldlM_cons, hg]
      simp only [ok_bind]
      rw [dinsert_of_not_mem _ hfresh,
        ih (acc ++ [(c.name, c.to_dict)]) (fun x hx => hres x (List.mem_cons_of_mem _ hx)) (by
          have h2 : keysA (acc ++ [(c.name, c.to_dict)]) ++ keysA l =
              keysA acc ++ c.name :: keysA l := by
            simp [keysA]
          rw [h2, hcn]
          exact hnd)]
      simp [hcn, hrc]

theorem encode_pages_fold (b : Book) (l : List (PageId × Page))
    (acc : List (PageId × PageDict))
    (hgood : ∀ e ∈ l, e.2.pagenum = e.1 ∧ (b.heap[e.2.character]?).isSome = true ∧
      (∀ ch ∈ e.2.choices, ch.2.target = ch.1) ∧ (keysA e.2.choices).Nodup)
    (hnd : (keysA acc ++ keysA l).Nodup) :
    l.foldlM (fun d e => do
      let pd ← e.2.to_dict b.heap
      Except.ok (dinsert d e.2.pagenum pd)) acc =
      .ok (acc ++ l.map (fun e => (e.1, pageDictOf b e.2))) := by
  induction l generalizing acc with
  | nil => simp
  | cons e l ih =>
    obtain ⟨hp, hcs, hck, hcn⟩ := hgood e (List.mem_cons_self _ _)
    rw [List.foldlM_cons, Page.to_dict_eq b e.2 hcs hck hcn]
    simp only [ok_bind]
    rw [keysA_cons] at hnd
    have hfresh : e.2.pagenum ∉ keysA acc := by
      rw [hp]
      exact fun hc => (List.nodup_append.mp hnd).2.2 hc (List.mem_cons_self _ _)
    rw [dinsert_of_not_mem _ hfresh,
      ih (acc ++ [(e.2.pagenum, pageDictOf b e.2)])
        (fun x hx => hgood x (List.mem_cons_of_mem _ hx)) (by
          have h2 : keysA (acc ++ [(e.2.pagenum, pageDictOf b e.2)]) ++ keysA l =
              keysA acc ++ e.2.pagenum :: keysA l := by
            simp [keysA]
          rw [h2, hp]
          exact hnd)]
    simp [hp]

/-- `get_savedict` on a well-formed nonempty book. -/
theorem get_savedict_eq (b : Book) (hwf : b.wfB = true)
    (hchars : b.characters ≠ []) (hpages : b.pages ≠ []) :
    b.get_savedict = .ok
      { title := b.title,
        characters := b.characters.map (fun e => (e.1, (b.resolveChar e.2).to_dict)),
        pages := b.pages.map (fun e => (e.1, pageDictOf b e.2)),
        intermediates := some (sortPageIds b.intermediates) } := by
  obtain ⟨hndc, hndp, -, hres, hpg⟩ := wfB_unpack hwf
  unfold Book.get_savedict
  rw [if_neg (by simp [List.length_eq_zero, hchars]),
    if_neg (by simp [List.length_eq_zero, hpages])]
  rw [encode_chars_fold b b.characters []
    (fun e he => by
      obtain ⟨c, hc, hn⟩ := hres e he
      refine ⟨by simp [hc], ?_⟩
      simp [Book.resolveChar, hc, hn])
    (by simpa [keysA] using hndc)]
  simp only [ok_bind]
  rw [encode_pages_fold b b.pages []
    (fun e he => by
      obtain ⟨hp, ⟨ce, hce, hcee⟩, hcnd, hct⟩ := hpg e he
      obtain ⟨c, hc, -⟩ := hres ce hce
      exact ⟨hp, by rw [← hcee]; simp [hc], hct, hcnd⟩)
    (by simpa [keysA] using hndp)]
  simp only [ok_bind]
  rfl

theorem foldl_add_intermediate (bk : Book) (l : List PageId) (hnd : l.Nodup)
    (hdisj : ∀ x ∈ l, x ∉ bk.intermediates) :
    l.foldl Book.add_intermediate bk = { bk with intermediates := bk.intermediates ++ l } := by
  induction l generalizing bk with
  | nil => simp
  | cons x l ih =>
    rw [List.foldl_cons]
    have hstep : bk.add_intermediate x = { bk with intermediates := bk.intermediates ++ [x] } := by
      unfold Book.add_intermediate
      rw [sinsert_of_not_mem (hdisj x (List.mem_cons_self _ _))]
    rw [hstep, ih _ (List.nodup_cons.mp hnd).2 (fun y hy => by
      simp only [List.mem_append, List.mem_singleton, not_or]
      exact ⟨hdisj y (List.mem_cons_of_mem _ hy),
        fun hc => (List.nodup_cons.mp hnd).1 (hc ▸ hy)⟩)]
    simp

theorem fold_add_choice (cds : List (PageId × ChoiceDict)) (p : Page)
    (hk : ∀ e ∈ cds, e.2.target = e.1)
    (hnd : (keysA p.choices ++ keysA cds).Nodup) :
    cds.foldlM (fun p e => p.add_choice_obj (Choice.from_dict e.2)) p =
      .ok { p with choices := p.choices ++ cds.map (fun e => (e.1, Choice.from_dict e.2)) } := by
  induction cds generalizing p with
  | nil => simp
  | cons e cds ih =>
    rw [keysA_cons] at hnd
    have htar : (Choice.from_dict e.2).target = e.1 := hk e (List.mem_cons_self _ _)
    have hfresh : (Choice.from_dict e.2).target ∉ keysA p.choices := by
      rw [htar]
      exact fun hc => (List.nodup_append.mp hnd).2.2 hc (List.mem_cons_self _ _)
    have hstep : p.add_choice_obj (Choice.from_dict e.2) =
        .ok { p with choices := p.choices ++ [(e.1, Choice.from_dict e.2)] } := by
      unfold Page.add_choice_obj
      rw [if_neg (by simp [lookupA_eq_none_iff.mpr hfresh]),
        dinsert_of_not_mem _ hfresh, htar]
    rw [List.foldlM_cons, hstep]
    simp only [ok_bind]
    rw [ih _ (fun x hx => hk x (List.mem_cons_of_mem _ hx)) (by
      have h2 : keysA (p.choices ++ [(e.1, Choice.from_dict e.2)]) ++ keysA cds =
          keysA p.choices ++ e.1 :: keysA cds := by
        simp [keysA]
      rw [h2]
      exact hnd)]
    simp

theorem Page.from_dict_eq (pd : PageDict) (chars : List (String × CharRef)) (r : CharRef)
    (hr : lookupA chars pd.character = some r)
    (hk : ∀ ch ∈ pd.choices, ch.2.target = ch.1)
    (hnd : (keysA pd.choices).Nodup) :
    Page.from_dict pd chars = .ok
      { pagenum := pd.pagenum, character := r, summary := pd.summary,
        canonical := pd.canonical, ending := pd.ending,
        choices := pd.choices.map (fun ch => (ch.1, Choice.from_dict ch.2)) } := by
  unfold Page.from_dict
  rw [hr]
  simp only [ok_bind]
  rw [fold_add_choice pd.choices _ hk (by simpa [keysA] using hnd)]
  rfl

theorem load_chars (cds : List (String × CharDict)) (bk : Book)
    (hname : ∀ e ∈ cds, e.2.name = e.1)
    (hnd : (keysA bk.characters ++ keysA cds).Nodup)
    (hvalid : ∀ e ∈ bk.characters, e.2 < bk.heap.length) :
    ∃ b2, cds.foldlM (fun b e => b.add_character_new (Character.from_dict e.2)) bk = .ok b2 ∧
      b2.title = bk.title ∧ b2.filename = bk.filename ∧ b2.pages = bk.pages ∧
      b2.intermediates = bk.intermediates ∧
      keysA b2.characters = keysA bk.characters ++ keysA cds ∧
      (∀ e ∈ b2.characters, e.2 < b2.heap.length) ∧
      b2.resolvedChars = bk.resolvedChars ++
        cds.map (fun e => (e.1, some (Character.from_dict e.2))) := by
  induction cds generalizing bk with
  | nil =>
    exact ⟨bk, by simp, rfl, rfl, rfl, rfl, by simp [keysA], hvalid, by simp⟩
  | cons e cds ih =>
    rw [keysA_cons] at hnd
    have hcn : (Character.from_dict e.2).name = e.1 := hname e (List.mem_cons_self _ _)
    have hfresh : (Character.from_dict e.2).name ∉ keysA bk.characters := by
      rw [hcn]
      exact fun hc => (List.nodup_append.mp hnd).2.2 hc (List.mem_cons_self _ _)
    have hstep : bk.add_character_new (Character.from_dict e.2) = .ok
        { bk with heap := bk.heap ++ [Character.from_dict e.2],
                  characters := bk.characters ++ [(e.1, bk.heap.length)] } := by
      unfold Book.add_character_new Book.add_character_obj
      rw [show ({ bk with heap := bk.heap ++ [Character.from_dict e.2] } : Book).getChar
          bk.heap.length = .ok (Character.from_dict e.2) from by
        simp [Book.getChar, List.getElem?_concat_length]]
      simp only [ok_bind]
      rw [if_neg (by simp [lookupA_eq_none_iff.mpr hfresh]),
        dinsert_of_not_mem _ hfresh, hcn]
    rw [List.foldlM_cons, hstep]
    simp only [ok_bind]
    set bk1 : Book := ({ bk with heap := bk.heap ++ [Character.from_dict e.2], characters := bk.characters ++ [(e.1, bk.heap.length)] } : Book) with hbk1
    have hvalid1 : ∀ x ∈ bk1.characters, x.2 < bk1.heap.length := by
      intro x hx
      rcases List.mem_append.mp hx with h | h
      · have := hvalid x h
        have hlen : bk1.heap.length = bk.heap.length + 1 := by
          simp [hbk1]
        rw [hlen]
        exact Nat.lt_succ_of_lt this
      · simp only [List.mem_singleton] at h
        subst h
        simp [hbk1]
    obtain ⟨b2, hfold, ht, hf, hpg, hi, hkeys, hv2, hrc⟩ := ih bk1
      (fun x hx => hname x (List.mem_cons_of_mem _ hx))
      (by
        have h2 : keysA bk1.characters ++ keysA cds =
            keysA bk.characters ++ e.1 :: keysA cds := by
          simp [hbk1, keysA]
        rw [h2]
        exact hnd)
      hvalid1
    refine ⟨b2, hfold, ht, hf, hpg, hi, ?_, hv2, ?_⟩
    · rw [hkeys]
      simp [hbk1, keysA]
    · rw [hrc]
      have hrc1 : bk1.resolvedChars = bk.resolvedChars ++
          [(e.1, some (Character.from_dict e.2))] := by
        unfold Book.resolvedChars
        simp only [hbk1, List.map_append]
        congr 1
        · refine List.map_congr_left ?_
          intro x hx
          have := hvalid x hx
          rw [List.getElem?_append_left this]
        · simp [List.getElem?_concat_length]
      rw [hrc1]
      simp

theorem load_pages (pds : List (PageId × PageDict)) (bk : Book)
    (hpd : ∀ e ∈ pds, e.2.pagenum = e.1 ∧ (∀ ch ∈ e.2.choices, ch.2.target = ch.1) ∧
      (keysA e.2.choices).Nodup ∧ (lookupA bk.characters e.2.character).isSome = true)
    (hnd : (keysA bk.pages ++ keysA pds).Nodup) :
    ∃ b2, pds.foldlM (fun b e => do
        let p ← Page.from_dict e.2 b.characters
        b.add_page_obj p) bk = .ok b2 ∧
      b2.title = bk.title ∧ b2.heap = bk.heap ∧ b2.characters = bk.characters ∧
      b2.intermediates = bk.intermediates ∧
      b2.pages = bk.pages ++ pds.map (fun e => (e.1, pageOf bk e.2)) := by
  induction pds generalizing bk with
  | nil => exact ⟨bk, by simp, rfl, rfl, rfl, rfl, by simp⟩
  | cons e pds ih =>
    obtain ⟨hp, hck, hcnd, hcs⟩ := hpd e (List.mem_cons_self _ _)
    rcases hl : lookupA bk.characters e.2.character with _ | r
    · rw [hl] at hcs
      simp at hcs
    · rw [keysA_cons] at hnd
      have hfd := Page.from_dict_eq e.2 bk.characters r hl hck hcnd
      have hof : pageOf bk e.2 =
          { pagenum := e.2.pagenum, character := r, summary := e.2.summary,
            canonical := e.2.canonical, ending := e.2.ending,
            choices := e.2.choices.map (fun ch => (ch.1, Choice.from_dict ch.2)) } := by
        unfold pageOf
        rw [hl]
        rfl
      have hfresh : e.2.pagenum ∉ keysA bk.pages := by
        rw [hp]
        exact fun hc => (List.nodup_append.mp hnd).2.2 hc (List.mem_cons_self _ _)
      have hstep : bk.add_page_obj (pageOf bk e.2) = .ok
          { bk with pages := bk.pages ++ [(e.1, pageOf bk e.2)] } := by
        unfold Book.add_page_obj
        rw [hof]
        rw [if_neg (by simp [lookupA_eq_none_iff.mpr hfresh]),
          dinsert_of_not_mem _ hfresh]
        rw [hp]
      rw [List.foldlM_cons, hfd]
      simp only [ok_bind]
      rw [← hof, hstep]
      simp only [ok_bind]
      set bk1 : Book := { bk with pages := bk.pages ++ [(e.1, pageOf bk e.2)] } with hbk1
      obtain ⟨b2, hfold, ht, hh, hc, hi, hpgs⟩ := ih bk1
        (fun x hx => by
          obtain ⟨h1, h2, h3, h4⟩ := hpd x (List.mem_cons_of_mem _ hx)
          exact ⟨h1, h2, h3, by simpa [hbk1] using h4⟩)
        (by
          have h2 : keysA bk1.pages ++ keysA pds = keysA bk.pages ++ e.1 :: keysA pds := by
            simp [hbk1, keysA]
          rw [h2]
          exact hnd)
      refine ⟨b2, hfold, ht, hh, by simpa [hbk1] using hc, hi, ?_⟩
      rw [hpgs]
      have : pageOf bk1 = pageOf bk := by
        funext pd
        simp [pageOf, hbk1]
      simp [hbk1, this]

/-- In a book with unique character keys, an entry of the resolved characters
    view corresponds to a lookup that resolves on the heap. -/
theorem resolved_lookup {bk : Book} (hnd : (keysA bk.characters).Nodup) {n : String}
    {oc : Option Character} (h : (n, oc) ∈ bk.resolvedChars) :
    ∃ r, lookupA bk.characters n = some r ∧ bk.heap[r]? = oc := by
  obtain ⟨⟨ek, er⟩, he, heq⟩ := List.mem_map.mp h
  injection heq with h1 h2
  subst h1
  subst h2
  exact ⟨er, lookupA_eq_some_of_mem hnd he, rfl⟩

/-- A successful `add_character_new` leaves the intermediates dict unchanged. -/
theorem add_character_new_intermediates {bk : Book} {ch : Character} {b2 : Book}
    (h : bk.add_character_new ch = .ok b2) : b2.intermediates = bk.intermediates := by
  unfold Book.add_character_new Book.add_character_obj at h
  rcases hg : ({ bk with heap := bk.heap ++ [ch] } : Book).getChar bk.heap.length with er | c2
  · rw [hg] at h
    simp at h
  · rw [hg] at h
    simp only [ok_bind] at h
    split at h
    · exact absurd h (by simp)
    · injection h with h2
      rw [← h2]

/-- A successful page-decoding step (`Page.from_dict` then `add_page_obj`)
    leaves the intermediates dict unchanged. -/
theorem page_step_intermediates {bk : Book} {pd : PageDict} {b2 : Book}
    (h : (do
      let p ← Page.from_dict pd bk.characters
      bk.add_page_obj p) = .ok b2) : b2.intermediates = bk.intermediates := by
  rcases hp : Page.from_dict pd bk.characters with er | p
  · rw [hp] at h
    simp at h
  · rw [hp] at h
    simp only [ok_bind] at h
    unfold Book.add_page_obj at h
    split at h
    · exact absurd h (by simp)
    · injection h with h2
      rw [← h2]

/-- A monadic fold of book steps that each preserve the intermediates dict
    preserves the intermediates dict. -/
theorem foldlM_book_intermediates {A : Type} (f : Book → A → Except Err Book)
    (hf : ∀ bk x b2, f bk x = .ok b2 → b2.intermediates = bk.intermediates)
    (l : List A) :
    ∀ bk b2, l.foldlM f bk = .ok b2 → b2.intermediates = bk.intermediates := by
  induction l with
  | nil =>
    intro bk b2 h
    rw [List.foldlM_nil] at h
    simp only [pure_eq_ok] at h
    injection h with h2
    rw [← h2]
  | cons x l ih =>
    intro bk b2 h
    rw [List.foldlM_cons] at h
    rcases hx : f bk x with er | bk1
    · rw [hx] at h
      simp at h
    · rw [hx] at h
      simp only [ok_bind] at h
      rw [ih bk1 b2 h, hf bk x bk1 hx]

/-- C1: for every well-formed book with at least one character and at least
    one page, decoding the encoded form (`Book.load_from_dict` applied to
    `Book.get_savedict`'s output) succeeds and yields a book structurally
    equal to the original: same title, same characters with their names and
    both color strings, same pages with pagenum, character name, summary,
    canonical and ending flags and the same choices (target and summary), and
    the same intermediates set; moreover any encoded form lacking the
    intermediates key decodes to a book with an empty intermediates set. -/
theorem C1_roundtrip (b : Book) (hwf : b.wfB = true)
    (hchars : b.characters ≠ []) (hpages : b.pages ≠ []) :
    (∃ b2, b.roundTrip = .ok b2 ∧ bookEquiv b2 b) ∧
    (∀ sd b2, sd.intermediates = none → Book.load_from_dict sd = .ok b2 →
      b2.intermediates = []) := by
  constructor
  · obtain ⟨hndc, hndp, hndi, hres, hpg⟩ := wfB_unpack hwf
    have hbk1 : (sortPageIds b.intermediates).foldl Book.add_intermediate (Book.new b.title) =
        { title := b.title, filename := none, heap := [], characters := [],
          pages := [], intermediates := sortPageIds b.intermediates } := by
      rw [foldl_add_intermediate (Book.new b.title) (sortPageIds b.intermediates)
        ((sortPageIds_perm b.intermediates).nodup_iff.mpr hndi)
        (fun x hx => List.not_mem_nil x)]
      simp [Book.new]
    have hnameA : ∀ e ∈ b.characters.map (fun e => (e.1, (b.resolveChar e.2).to_dict)),
        e.2.name = e.1 := by
      intro e he
      obtain ⟨e0, he0, heq⟩ := List.mem_map.mp he
      subst heq
      obtain ⟨c, hc, hn⟩ := hres e0 he0
      simp [Character.to_dict, Book.resolveChar, hc, hn]
    have hndA : (keysA ({ title := b.title, filename := none, heap := [], characters := [], pages := [], intermediates := sortPageIds b.intermediates } : Book).characters ++
        keysA (b.characters.map (fun e => (e.1, (b.resolveChar e.2).to_dict)))).Nodup := by
      simp only [keysA_map_pair]
      show (([] : List String) ++ keysA b.characters).Nodup
      rw [List.nil_append]
      exact hndc
    obtain ⟨c2, hfold2, ht2, hf2, hpgs2, hi2, hkeys2, hv2, hrc2⟩ :=
      load_chars (b.characters.map (fun e => (e.1, (b.resolveChar e.2).to_dict)))
        { title := b.title, filename := none, heap := [], characters := [],
          pages := [], intermediates := sortPageIds b.intermediates }
        hnameA hndA (fun e he => absurd he (List.not_mem_nil e))
    have ht2E : c2.title = b.title := ht2
    have hpgE : c2.pages = ([] : List (PageId × Page)) := hpgs2
    have hi2E : c2.intermediates = sortPageIds b.intermediates := hi2
    have hkeysE : keysA c2.characters =
        keysA (b.characters.map (fun e => (e.1, (b.resolveChar e.2).to_dict))) := hkeys2
    have hrc2E : c2.resolvedChars =
        (b.characters.map (fun e => (e.1, (b.resolveChar e.2).to_dict))).map
          (fun e => (e.1, some (Character.from_dict e.2))) := hrc2
    have hndc2 : (keysA c2.characters).Nodup := by
      rw [hkeysE]
      simp only [keysA_map_pair]
      exact hndc
    have hrc_eq : c2.resolvedChars = b.resolvedChars := by
      rw [hrc2E, List.map_map]
      unfold Book.resolvedChars
      refine List.map_congr_left ?_
      intro e0 he0
      obtain ⟨c, hc, hn⟩ := hres e0 he0
      simp [Function.comp, Book.resolveChar, hc, character_roundtrip_dict]
    have hpdA : ∀ e ∈ b.pages.map (fun e => (e.1, pageDictOf b e.2)),
        e.2.pagenum = e.1 ∧ (∀ ch ∈ e.2.choices, ch.2.target = ch.1) ∧
        (keysA e.2.choices).Nodup ∧ (lookupA c2.characters e.2.character).isSome = true := by
      intro e he
      obtain ⟨e0, he0, heq⟩ := List.mem_map.mp he
      subst heq
      obtain ⟨hp, ⟨ce, hce, hcee⟩, hcnd, hct⟩ := hpg e0 he0
      obtain ⟨c, hcheap, hcname⟩ := hres ce hce
      show (pageDictOf b e0.2).pagenum = e0.1 ∧
        (∀ ch ∈ (pageDictOf b e0.2).choices, ch.2.target = ch.1) ∧
        (keysA (pageDictOf b e0.2).choices).Nodup ∧
        (lookupA c2.characters (pageDictOf b e0.2).character).isSome = true
      refine ⟨hp, ?_, ?_, ?_⟩
      · intro ch hch
        obtain ⟨ch0, hch0, hcheq⟩ := List.mem_map.mp hch
        subst hcheq
        exact hct ch0 hch0
      · have h1 : keysA (pageDictOf b e0.2).choices = keysA e0.2.choices :=
          keysA_map_pair e0.2.choices (fun ch => ch.2.to_dict)
        rw [h1]
        exact hcnd
      · have hpdchar : (pageDictOf b e0.2).character = ce.1 := by
          show (b.resolveChar e0.2.character).name = ce.1
          rw [← hcee]
          simp [Book.resolveChar, hcheap, hcname]
        rw [hpdchar]
        have hmem : (ce.1, some c) ∈ c2.resolvedChars := by
          rw [hrc_eq]
          exact List.mem_map.mpr ⟨ce, hce, by rw [hcheap]⟩
        obtain ⟨r, hlr, hhr⟩ := resolved_lookup hndc2 hmem
        simp [hlr]
    have hndB : (keysA c2.pages ++
        keysA (b.pages.map (fun e => (e.1, pageDictOf b e.2)))).Nodup := by
      rw [hpgE]
      simp only [keysA_map_pair]
      exact hndp
    obtain ⟨b3, hfold3, ht3, hh3, hc3, hi3, hpp3⟩ :=
      load_pages (b.pages.map (fun e => (e.1, pageDictOf b e.2))) c2 hpdA hndB
    have hpp3E : b3.pages = (b.pages.map (fun e => (e.1, pageDictOf b e.2))).map
        (fun e => (e.1, pageOf c2 e.2)) := by
      rw [hpp3, hpgE, List.nil_append]
    have hLD : Book.load_from_dict
        { title := b.title,
          characters := b.characters.map (fun e => (e.1, (b.resolveChar e.2).to_dict)),
          pages := b.pages.map (fun e => (e.1, pageDictOf b e.2)),
          intermediates := some (sortPageIds b.intermediates) } = .ok b3 := by
      simp only [Book.load_from_dict]
      rw [hbk1, hfold2]
      simp only [ok_bind]
      exact hfold3
    have htitle : b3.title = b.title := ht3.trans ht2E
    have hrc3 : b3.resolvedChars = c2.resolvedChars := by
      unfold Book.resolvedChars
      rw [hc3, hh3]
    have hrp_final : b3.resolvedPages = b.resolvedPages := by
      unfold Book.resolvedPages
      rw [hpp3E, List.map_map, List.map_map]
      refine List.map_congr_left ?_
      intro e0 he0
      obtain ⟨hp, ⟨ce, hce, hcee⟩, hcnd, hct⟩ := hpg e0 he0
      obtain ⟨c, hcheap, hcname⟩ := hres ce hce
      have hpdchar : (pageDictOf b e0.2).character = ce.1 := by
        show (b.resolveChar e0.2.character).name = ce.1
        rw [← hcee]
        simp [Book.resolveChar, hcheap, hcname]
      have hmem : (ce.1, some c) ∈ c2.resolvedChars := by
        rw [hrc_eq]
        exact List.mem_map.mpr ⟨ce, hce, by rw [hcheap]⟩
      obtain ⟨r, hlr, hhr⟩ := resolved_lookup hndc2 hmem
      have hpo : pageOf c2 (pageDictOf b e0.2) =
          { pagenum := e0.2.pagenum, character := r, summary := e0.2.summary,
            canonical := e0.2.canonical, ending := e0.2.ending,
            choices := e0.2.choices } := by
        unfold pageOf
        rw [hpdchar, hlr]
        simp [pageDictOf, List.map_map, choice_roundtrip_dict, Function.comp]
        exact List.map_id e0.2.choices
      show (e0.1, b3.pageView (pageOf c2 (pageDictOf b e0.2))) = (e0.1, b.pageView e0.2)
      rw [hpo]
      unfold Book.pageView
      rw [hh3]
      simp [hhr, ← hcee, hcheap]
    have hi_eq : b3.intermediates = sortPageIds b.intermediates := by
      rw [hi3]
      exact hi2E
    refine ⟨b3, ?_, ?_⟩
    · unfold Book.roundTrip
      rw [get_savedict_eq b hwf hchars hpages]
      simp only [ok_bind]
      exact hLD
    · refine ⟨htitle, hrc3.trans hrc_eq, hrp_final, ?_, ?_⟩
      · intro k hk
        rw [hi_eq] at hk
        exact (sortPageIds_perm b.intermediates).mem_iff.mp hk
      · intro k hk
        rw [hi_eq]
        exact (sortPageIds_perm b.intermediates).mem_iff.mpr hk
  · intro sd b2 hnone hload
    simp only [Book.load_from_dict, hnone] at hload
    rcases hc : sd.characters.foldlM
        (fun bk e => bk.add_character_new (Character.from_dict e.2)) (Book.new sd.title)
      with er | c1
    · rw [hc] at hload
      simp at hload
    · rw [hc] at hload
      simp only [ok_bind] at hload
      have h1 : c1.intermediates = (Book.new sd.title).intermediates :=
        foldlM_book_intermediates _
          (fun bk x b4 h => add_character_new_intermediates h)
          sd.characters (Book.new sd.title) c1 hc
      have h2 : b2.intermediates = c1.intermediates :=
        foldlM_book_intermediates _
          (fun bk x b4 h => page_step_intermediates h)
          sd.pages c1 b2 hload
      rw [h2, h1, show (Book.new sd.title).intermediates = [] from rfl]

/-- Witness for C1: the scenario book with an intermediate page is
    well-formed and nonempty, so the round-trip property holds for it. -/
theorem C1_roundtrip_witness :
    mixBook.wfB = true ∧ mixBook.characters ≠ [] ∧ mixBook.pages ≠ [] ∧
    ((∃ b2, mixBook.roundTrip = .ok b2 ∧ bookEquiv b2 mixBook) ∧
     (∀ sd b2, sd.intermediates = none → Book.load_from_dict sd = .ok b2 →
       b2.intermediates = [])) :=
  ⟨by decide, by decide, by decide,
    C1_roundtrip mixBook (by decide) (by decide) (by decide)⟩

end Choosable
